import Mathlib

/-!
Verification development for the pre-ranking stage of the search engine
(`search/pre_ranker.cpp`).  The C++ code is shallowly embedded: machine
doubles become rationals, `uint8_t` arithmetic is modelled with explicit
`% 256`, containers become lists and finsets, and the per-query mutable
state of `PreRanker` becomes an explicit state record.  Collaborator
classes whose sources are not part of the traced file (rank tables, the
nearby-points sweeper, comparators of `PreRankerResult`, `base`
helpers) are modelled from the specification and are marked as such in
their doc comments.
-/

set_option maxHeartbeats 1000000

/-- Composite feature key: map partition (mwm) identifier plus the
in-partition feature index.  Ordering is lexicographic. -/
structure FeatureID where
  mwmId : Nat
  index : Nat
deriving DecidableEq, Repr

/-- Modelled from the spec: ordering of `FeatureID` is (partition, index)
lexicographic (`FeatureID::operator<` is not part of the traced file). -/
def FeatureID.less (a b : FeatureID) : Bool :=
  decide (a.mwmId < b.mwmId ∨ (a.mwmId = b.mwmId ∧ a.index < b.index))

/-- Planar point with rational coordinates (embeds `m2::PointD`). -/
structure Point where
  x : Rat
  y : Rat
deriving DecidableEq, Repr

/-- Rectangle given by its corner coordinates (embeds `m2::RectD`). -/
structure Rect where
  minX : Rat
  minY : Rat
  maxX : Rat
  maxY : Rat
deriving DecidableEq, Repr

/-- Point-in-rectangle test of `m2::Rect::IsPointInside` (closed rectangle). -/
def Rect.IsPointInside (rc : Rect) (p : Point) : Bool :=
  decide (rc.minX ≤ p.x) && decide (p.x ≤ rc.maxX) &&
  decide (rc.minY ≤ p.y) && decide (p.y ≤ rc.maxY)

/-- One pre-ranker candidate (embeds `PreRankerResult`): the feature key,
the match metadata produced by token matching, and the mutable enrichment
fields (rank, popularity, distance to pivot, center) filled by
`FillMissingFieldsInPreResults`. -/
structure PreRankerResult where
  id : FeatureID
  innermostTokensNumber : Nat
  matchedTokensNumber : Nat
  innermostTokenRangeBegin : Nat
  exactMatch : Bool
  relaxed : Bool
  rank : Nat
  popularity : Nat
  distanceToPivot : Rat
  center : Point
  centerLoaded : Bool
deriving DecidableEq, Repr

instance : Inhabited PreRankerResult :=
  ⟨{ id := ⟨0, 0⟩, innermostTokensNumber := 0, matchedTokensNumber := 0,
     innermostTokenRangeBegin := 0, exactMatch := false, relaxed := false,
     rank := 0, popularity := 0, distanceToPivot := 0,
     center := ⟨0, 0⟩, centerLoaded := false }⟩

/-- Modelled from the spec: `PreRankerResult::IsNotRelaxed` (the accessor
itself is not part of the traced file; the spec says a relaxed result is a
weak/fuzzy match kept only as filler). -/
def PreRankerResult.IsNotRelaxed (r : PreRankerResult) : Bool := !r.relaxed

/-- Query parameters snapshot (embeds `PreRanker::Params`). -/
structure Params where
  accuratePivotCenter : Point
  position : Option Point
  viewport : Rect
  scale : Nat
  batchSize : Nat
  minDistanceOnMapBetweenResults : Point
  numQueryTokens : Nat
  viewportSearch : Bool
  categorialRequest : Bool
deriving DecidableEq, Repr

/-- Modelled from the spec: the pivot-distance estimator's cache
(`m_pivotFeatures`, class `PivotRectsCache`, not part of the traced file).
Only its frame behaviour matters here: `Init` must leave it alone and
`ClearCaches` must drop it. -/
structure PivotRectsCache where
  cache : List (FeatureID × Rat)
deriving DecidableEq, Repr

/-- Modelled from the spec: the loadable content of one map partition —
an optional authority-rank table, an optional popularity-rank table
(each `table.get(index) -> byte, default 0`), and a centers table whose
per-entry lookup may fail. -/
structure MwmValue where
  ranksTable : Option (List Nat)
  popularityTable : Option (List Nat)
  centersTable : List (Option Point)

/-- Modelled from the spec: the external collaborators of the pre-ranker —
the data source (`resolve(partitionId) -> handle | unavailable`), the live
edit overlay (geometry of freshly created features), the approximate
pivot-distance estimator, and great-circle distance. -/
structure Env where
  ds : Nat → Option MwmValue
  editor : FeatureID → Option Point
  estDist : FeatureID → Rat
  dist : Point → Point → Rat

/-- Modelled from the spec: `RankTable::Get` returns the stored byte,
defaulting to 0 when absent or out of range; the dummy table is `[]`. -/
def rankTableGet (t : List Nat) (i : Nat) : Nat := t.getD i 0

/-- Insertion step of the sorting model: place `a` before the first
element it strictly precedes under `less`. -/
def insertSorted (less : α → α → Bool) (a : α) : List α → List α
  | [] => [a]
  | b :: l => if less a b then a :: b :: l else b :: insertSorted less a l

/-- Deterministic model of comparison sorting with a strict-order
comparator (refines `std::sort`: same multiset, sorted output; ties keep
their relative order). -/
def sortBy (less : α → α → Bool) : List α → List α
  | [] => []
  | a :: l => insertSorted less a (sortBy less l)

/-- Adjacent-duplicate removal keeping the first element of each run
(refines `std::unique` as used by `base::SortUnique`). -/
def uniqueAdj (eq : α → α → Bool) : List α → List α
  | [] => []
  | [a] => [a]
  | a :: b :: l => if eq a b then uniqueAdj eq (a :: l) else a :: uniqueAdj eq (b :: l)
termination_by l => l.length

/-- Keyed first-occurrence deduplication: the model of inserting a run of
elements into a `std::set` ordered by key (`insert` keeps the first
element inserted for each key). -/
def dedupByKey {β : Type} [DecidableEq β] (key : α → β) : List α → List α
  | [] => []
  | a :: rest => a :: dedupByKey key (rest.filter (fun b => !decide (key b = key a)))
termination_by l => l.length
decreasing_by simp; exact Nat.lt_succ_of_le (List.length_filter_le _ _)

/-- Strict lexicographic order on feature ids as a proposition. -/
def idLt (x y : FeatureID) : Prop :=
  x.mwmId < y.mwmId ∨ (x.mwmId = y.mwmId ∧ x.index < y.index)

/-- The deduplication comparator of `PreRanker::Filter` (`lessForUnique`):
feature id first, then more innermost tokens, then more matched tokens,
then earlier innermost token range. -/
def lessForUnique (lhs rhs : PreRankerResult) : Bool :=
  if lhs.id ≠ rhs.id then FeatureID.less lhs.id rhs.id
  else if lhs.innermostTokensNumber ≠ rhs.innermostTokensNumber then
    decide (lhs.innermostTokensNumber > rhs.innermostTokensNumber)
  else if lhs.matchedTokensNumber ≠ rhs.matchedTokensNumber then
    decide (lhs.matchedTokensNumber > rhs.matchedTokensNumber)
  else decide (lhs.innermostTokenRangeBegin < rhs.innermostTokenRangeBegin)

/-- Equality of candidates by feature id
(`base::EqualsBy(&PreRankerResult::GetId)`). -/
def EqualsById (a b : PreRankerResult) : Bool := decide (a.id = b.id)

/-- Modelled from the spec: `PreRankerResult::LessDistance` orders by
ascending distance to pivot (not part of the traced file). -/
def LessDistance (lhs rhs : PreRankerResult) : Bool :=
  decide (lhs.distanceToPivot < rhs.distanceToPivot)

/-- Modelled from the spec: `PreRankerResult::LessRankAndPopularity` —
the combined rank+popularity comparator, higher authority rank first,
then higher popularity (not part of the traced file). -/
def LessRankAndPopularity (lhs rhs : PreRankerResult) : Bool :=
  if lhs.rank ≠ rhs.rank then decide (lhs.rank > rhs.rank)
  else decide (lhs.popularity > rhs.popularity)

/-- Modelled from the spec: `PreRankerResult::LessByExactMatch` prefers
exact matches (not part of the traced file). -/
def LessByExactMatch (lhs rhs : PreRankerResult) : Bool :=
  lhs.exactMatch && !rhs.exactMatch

/-- Strict order on candidates by feature id (`LessFeatureID` in
`PreRanker::Filter`). -/
def LessFeatureID (lhs rhs : PreRankerResult) : Bool := FeatureID.less lhs.id rhs.id

/-- Modelled from the spec: `base::SortUnique(m_results, lessForUnique,
EqualsBy(GetId))` — stable-sort by the dedup comparator, then drop
adjacent candidates with equal feature ids, keeping the first of each
run (`base::SortUnique` itself is not part of the traced file). -/
def SortUnique (l : List PreRankerResult) : List PreRankerResult :=
  uniqueAdj EqualsById (sortBy lessForUnique l)

/-- Priority of a candidate in the nearby-results sweep, exactly as
computed in `SweepNearbyResults`: the maximum of rank, a previous-emission
boost of 3, popularity and an exact-match bit, plus the constant offset 2
left from the disabled filter signal — computed in a `uint8_t`, hence the
explicit wrap-around modulo 256. -/
def sweepPriority (prevEmit : Finset FeatureID) (r : PreRankerResult) : Nat :=
  let prevCount : Nat := if r.id ∈ prevEmit then 3 else 0
  let exactBit : Nat := if r.exactMatch then 1 else 0
  (max (max r.rank prevCount) (max r.popularity exactBit) + 2) % 256

/-- Priority formula as the spec words it — `max(rank, prev-boost,
popularity, exact bit) + 2` over unbounded integers, with no byte
wrap-around.  Kept to compare the spec's claim with the code. -/
def specSweepPriority (prevEmit : Finset FeatureID) (r : PreRankerResult) : Nat :=
  let prevCount : Nat := if r.id ∈ prevEmit then 3 else 0
  let exactBit : Nat := if r.exactMatch then 1 else 0
  max (max r.rank prevCount) (max r.popularity exactBit) + 2

/-- Two points are within the sweep epsilon in both axes. -/
def sweepNear (eps p q : Point) : Bool :=
  decide (|p.x - q.x| ≤ eps.x) && decide (|p.y - q.y| ≤ eps.y)

/-- Index-level adjacency for the sweep. -/
def sweepNbr (eps : Point) (rs : List PreRankerResult) (i j : Nat) : Bool :=
  decide (i < rs.length) && decide (j < rs.length) &&
  sweepNear eps (rs.getD i default).center (rs.getD j default).center

/-- Tie-break flag: 1 when the candidate was emitted in the previous
cycle. -/
def prevFlag (prevEmit : Finset FeatureID) (r : PreRankerResult) : Nat :=
  if r.id ∈ prevEmit then 1 else 0

/-- Strict preference between sweep candidates: higher priority first,
then previous-emission membership, then earlier index. -/
def sweepBeats (prevEmit : Finset FeatureID) (rs : List PreRankerResult) (i j : Nat) : Bool :=
  decide (sweepPriority prevEmit (rs.getD j default) < sweepPriority prevEmit (rs.getD i default) ∨
    (sweepPriority prevEmit (rs.getD i default) = sweepPriority prevEmit (rs.getD j default) ∧
      (prevFlag prevEmit (rs.getD j default) < prevFlag prevEmit (rs.getD i default) ∨
        (prevFlag prevEmit (rs.getD i default) = prevFlag prevEmit (rs.getD j default) ∧ i < j))))

/-- One expansion step of the cluster computation: add every index
adjacent to the current set. -/
def sweepExpand (eps : Point) (rs : List PreRankerResult) (s : List Nat) : List Nat :=
  s ++ (List.range rs.length).filter (fun j => s.any (fun i => sweepNbr eps rs i j))

/-- Indices reachable from `i` through chains of nearby candidates
(the sweep cluster of `i`), computed with `|rs|` expansion rounds. -/
def sweepReach (eps : Point) (rs : List PreRankerResult) (i : Nat) : List Nat :=
  Nat.iterate (sweepExpand eps rs) rs.length [i]

def sameCluster (eps : Point) (rs : List PreRankerResult) (i j : Nat) : Bool :=
  decide (j ∈ sweepReach eps rs i)

/-- A candidate survives the sweep iff it beats every other member of its
cluster. -/
def sweepSurvives (eps : Point) (prevEmit : Finset FeatureID)
    (rs : List PreRankerResult) (i : Nat) : Bool :=
  decide (i < rs.length) &&
  (List.range rs.length).all
    (fun j => decide (j = i) || !sameCluster eps rs i j || sweepBeats prevEmit rs i j)

/-- Modelled from the spec: `SweepNearbyResults` delegates clustering to
`m2::NearbyPointsSweeper` (not part of the traced file); per the spec the
sweeper keeps, among candidates closer than epsilon (one representative
per cluster), the one with the highest priority, ties favouring
previously-emitted ids.  The per-candidate priority is taken verbatim
from the traced loop. -/
def SweepNearbyResults (eps : Point) (prevEmit : Finset FeatureID)
    (results : List PreRankerResult) : List PreRankerResult :=
  ((List.range results.length).filter (sweepSurvives eps prevEmit results)).map
    (fun i => results.getD i default)

/-- Modelled from the spec: `PreRankerResult::CategoriesComparator` (not
part of the traced file) — when the user position is inside the viewport
it prefers candidates whose center is inside the viewport; at detailed
scales it orders by distance, otherwise by popularity. -/
def CategoriesComparator (posInside detailed : Bool) (viewport : Rect)
    (lhs rhs : PreRankerResult) : Bool :=
  if posInside && (viewport.IsPointInside lhs.center != viewport.IsPointInside rhs.center) then
    viewport.IsPointInside lhs.center
  else if detailed then decide (lhs.distanceToPivot < rhs.distanceToPivot)
  else decide (rhs.popularity < lhs.popularity)

/-- `PreRanker::FilterForViewportSearch`: erase candidates without a
loaded center, with a center outside the viewport, or with insufficient
token coverage; then sweep nearby results and record every surviving id
into the current-emission set. -/
def FilterForViewportSearch (params : Params) (prevEmit currEmit : Finset FeatureID)
    (results : List PreRankerResult) : List PreRankerResult × Finset FeatureID :=
  let kept := results.filter (fun r =>
    r.centerLoaded && params.viewport.IsPointInside r.center &&
    !decide (r.matchedTokensNumber + 1 < params.numQueryTokens))
  let swept := SweepNearbyResults params.minDistanceOnMapBetweenResults prevEmit kept
  (swept, swept.foldl (fun acc r => insert r.id acc) currEmit)

/-- The batched multi-criteria selection of `PreRanker::Filter` for an
over-budget candidate list: one `nth_element` pass by distance (modelled
as take-of-sort, a deterministic refinement), then either the
rank+popularity and exact-match passes (non-categorial) or the single
categorial pass; the union is a `std::set` ordered by feature id, which
keeps the first inserted candidate per id. -/
def batchPasses (env : Env) (params : Params) (rs : List PreRankerResult) :
    List PreRankerResult :=
  let top1 := (sortBy LessDistance rs).take params.batchSize
  if !params.categorialRequest then
    let top2 := (sortBy LessRankAndPopularity rs).take params.batchSize
    let top3 := (sortBy LessByExactMatch rs).take params.batchSize
    sortBy LessFeatureID (dedupByKey PreRankerResult.id (top1 ++ top2 ++ top3))
  else
    let posInside := (match params.position with
      | some p => params.viewport.IsPointInside p
      | none => false)
    let detailed := decide (env.dist ⟨params.viewport.minX, params.viewport.maxY⟩
      ⟨params.viewport.maxX, params.viewport.minY⟩ < 2 * 2500)
    let top2 := (sortBy (CategoriesComparator posInside detailed params.viewport) rs).take
      params.batchSize
    sortBy LessFeatureID (dedupByKey PreRankerResult.id (top1 ++ top2))

/-- `PreRanker::Filter`: dedup by feature id keeping the best match, the
viewport pre-filter and sweep when in viewport search, early return when
the candidate set is within the batch budget, otherwise the
multi-criteria batch selection.  Returns the new candidate list and the
current-emission set. -/
def PreRanker.Filter (env : Env) (params : Params) (prevEmit currEmit : Finset FeatureID)
    (results : List PreRankerResult) : List PreRankerResult × Finset FeatureID :=
  let r1 := SortUnique results
  let vp := if params.viewportSearch then
      FilterForViewportSearch params prevEmit currEmit r1
    else (r1, currEmit)
  if vp.1.length ≤ params.batchSize then vp
  else (batchPasses env params vp.1, vp.2)

/-- The per-partition cache threaded through
`FillMissingFieldsInPreResults`: the current partition id, the rank and
popularity tables, and the centers table (present only when the
partition handle is alive).  The initial tables are the dummy (all-zero)
tables. -/
structure FillState where
  mwmId : Option Nat
  ranks : List Nat
  popularityRanks : List Nat
  centers : Option (List (Option Point))

def initFillState : FillState := ⟨none, [], [], none⟩

/-- Fallback of the center/distance enrichment: freshly created edited
features take the edited geometry, otherwise the approximate
pivot-distance estimator supplies the distance. -/
def fillFallback (env : Env) (params : Params) (r : PreRankerResult) : PreRankerResult :=
  match env.editor r.id with
  | some c => { r with distanceToPivot := env.dist params.accuratePivotCenter c,
                       center := c, centerLoaded := true }
  | none => { r with distanceToPivot := env.estDist r.id }

/-- Partition-boundary step of `FillMissingFieldsInPreResults`: reload
the caches (releasing `ranks` and `centers`; when the handle is not
alive the popularity table is left as-is, exactly as in the code). -/
def fillBoundary (env : Env) (st : FillState) (r : PreRankerResult) : FillState :=
  if st.mwmId ≠ some r.id.mwmId then
    match env.ds r.id.mwmId with
    | some v => { mwmId := some r.id.mwmId, ranks := v.ranksTable.getD [],
                  popularityRanks := v.popularityTable.getD [],
                  centers := some v.centersTable }
    | none => { mwmId := some r.id.mwmId, ranks := [],
                popularityRanks := st.popularityRanks, centers := none }
  else st

/-- Per-candidate enrichment from the cached tables: rank and popularity
by in-partition index, then center and distance-to-pivot (with the
editor/estimator fallback). -/
def fillEnrich (env : Env) (params : Params) (st2 : FillState) (r : PreRankerResult) :
    PreRankerResult :=
  let r2 := { r with rank := rankTableGet st2.ranks r.id.index,
                     popularity := rankTableGet st2.popularityRanks r.id.index }
  match st2.centers with
  | some ct =>
    match ct.getD r.id.index none with
    | some c => { r2 with distanceToPivot := env.dist params.accuratePivotCenter c,
                          center := c, centerLoaded := true }
    | none => fillFallback env params r2
  | none => fillFallback env params r2

/-- One step of `FillMissingFieldsInPreResults`. -/
def fillOne (env : Env) (params : Params) (st : FillState) (r : PreRankerResult) :
    FillState × PreRankerResult :=
  (fillBoundary env st r, fillEnrich env params (fillBoundary env st r) r)

def fillList (env : Env) (params : Params) (st : FillState) :
    List PreRankerResult → List PreRankerResult
  | [] => []
  | r :: rest =>
    (fillOne env params st r).2 :: fillList env params (fillOne env params st r).1 rest

/-- Traversal order of `ForEachMwmOrder`: candidates grouped by
partition. Modelled from the spec: the resolver iterates candidates in
non-decreasing partition order (`ForEachMwmOrder` is not part of the
traced file); the enriched candidates are produced in traversal order. -/
def lessByMwm (a b : PreRankerResult) : Bool := decide (a.id.mwmId < b.id.mwmId)

/-- `PreRanker::FillMissingFieldsInPreResults`. -/
def FillMissingFieldsInPreResults (env : Env) (params : Params)
    (results : List PreRankerResult) : List PreRankerResult :=
  fillList env params initFillState (sortBy lessByMwm results)

/-- Per-query mutable state of the pre-ranking orchestrator
(`PreRanker`'s fields). -/
structure PreRankerState where
  params : Params
  results : List PreRankerResult
  relaxedResults : List PreRankerResult
  numSentResults : Nat
  haveFullyMatchedResult : Bool
  currEmit : Finset FeatureID
  prevEmit : Finset FeatureID
  pivotFeatures : PivotRectsCache

/-- `PreRanker::Init`: reset the per-query state and store the params.
The previous-emission set and the pivot-features cache are untouched. -/
def PreRanker.Init (params : Params) (s : PreRankerState) : PreRankerState :=
  { s with numSentResults := 0, haveFullyMatchedResult := false,
           results := [], relaxedResults := [], params := params, currEmit := ∅ }

/-- `PreRanker::ClearCaches`: drop the pivot-features cache and both
emission sets. -/
def PreRanker.ClearCaches (s : PreRankerState) : PreRankerState :=
  { s with pivotFeatures := ⟨[]⟩, prevEmit := ∅, currEmit := ∅ }

/-- `PreRanker::FilterRelaxedResults`: on the final cycle append the
held-over relaxed buffer back into the candidate set and clear it; on a
non-final cycle move all relaxed candidates out of the candidate set
into the buffer (`std::partition` refined to the order-preserving
split). -/
def PreRanker.FilterRelaxedResults (lastUpdate : Bool) (s : PreRankerState) :
    PreRankerState :=
  if lastUpdate then
    { s with results := s.results ++ s.relaxedResults, relaxedResults := [] }
  else
    { s with results := s.results.filter (fun r => r.IsNotRelaxed),
             relaxedResults :=
               s.relaxedResults ++ s.results.filter (fun r => !r.IsNotRelaxed) }

/-- Emission set accumulated during one update cycle: the second
component of the `Filter` stage run by `UpdateResults`. -/
def cycleEmit (env : Env) (lastUpdate : Bool) (s : PreRankerState) : Finset FeatureID :=
  (PreRanker.Filter env (PreRanker.FilterRelaxedResults lastUpdate s).params
    (PreRanker.FilterRelaxedResults lastUpdate s).prevEmit
    (PreRanker.FilterRelaxedResults lastUpdate s).currEmit
    (FillMissingFieldsInPreResults env (PreRanker.FilterRelaxedResults lastUpdate s).params
      (PreRanker.FilterRelaxedResults lastUpdate s).results)).2

/-- Batch produced by one update cycle: the first component of the
`Filter` stage run by `UpdateResults` (what is handed to the ranker). -/
def cycleBatch (env : Env) (lastUpdate : Bool) (s : PreRankerState) :
    List PreRankerResult :=
  (PreRanker.Filter env (PreRanker.FilterRelaxedResults lastUpdate s).params
    (PreRanker.FilterRelaxedResults lastUpdate s).prevEmit
    (PreRanker.FilterRelaxedResults lastUpdate s).currEmit
    (FillMissingFieldsInPreResults env (PreRanker.FilterRelaxedResults lastUpdate s).params
      (PreRanker.FilterRelaxedResults lastUpdate s).results)).1

/-- `PreRanker::UpdateResults`: relaxed-buffer split, enrichment,
filter, hand the batch to the ranker (returned as the second component),
bump the sent counter, clear the candidate collection, and on the final
cycle swap the emission sets when the current one is non-empty. -/
def PreRanker.UpdateResults (env : Env) (lastUpdate : Bool) (s : PreRankerState) :
    PreRankerState × List PreRankerResult :=
  (if lastUpdate ∧ ¬((cycleEmit env lastUpdate s).card = 0) then
    { PreRanker.FilterRelaxedResults lastUpdate s with
      numSentResults := (PreRanker.FilterRelaxedResults lastUpdate s).numSentResults +
        (cycleBatch env lastUpdate s).length,
      results := [],
      prevEmit := cycleEmit env lastUpdate s,
      currEmit := (PreRanker.FilterRelaxedResults lastUpdate s).prevEmit }
  else
    { PreRanker.FilterRelaxedResults lastUpdate s with
      numSentResults := (PreRanker.FilterRelaxedResults lastUpdate s).numSentResults +
        (cycleBatch env lastUpdate s).length,
      results := [],
      currEmit := cycleEmit env lastUpdate s },
  cycleBatch env lastUpdate s)

/-- A candidate constructor used by the concrete test inputs below. -/
def mkCand (m i rk : Nat) (d cx cy : Rat) : PreRankerResult :=
  { id := ⟨m, i⟩, innermostTokensNumber := 1, matchedTokensNumber := 1,
    innermostTokenRangeBegin := 0, exactMatch := false, relaxed := false,
    rank := rk, popularity := 0, distanceToPivot := d,
    center := ⟨cx, cy⟩, centerLoaded := true }

/-- A trivial environment for the concrete test inputs. -/
def cEnvT : Env :=
  { ds := fun m => if m = 1 then
      some { ranksTable := none, popularityTable := some [7],
             centersTable := [some ⟨0, 0⟩] }
    else none,
    editor := fun _ => none, estDist := fun _ => 0, dist := fun _ _ => 0 }

/-- Concrete query parameters for the test inputs: batch size 1,
non-viewport, non-categorial. -/
def cParamsT : Params :=
  { accuratePivotCenter := ⟨0, 0⟩, position := none,
    viewport := ⟨0, 0, 10, 10⟩, scale := 0, batchSize := 1,
    minDistanceOnMapBetweenResults := ⟨5, 5⟩, numQueryTokens := 1,
    viewportSearch := false, categorialRequest := false }

/-- C8 witness input: a state whose cycle accumulates a non-empty
emission set. -/
def c8State : PreRankerState :=
  { params := cParamsT, results := [], relaxedResults := [], numSentResults := 0,
    haveFullyMatchedResult := false, currEmit := {⟨3, 3⟩},
    prevEmit := {⟨9, 9⟩}, pivotFeatures := ⟨[]⟩ }

/-- C8 counterexample state: the query accumulated an empty current
emission set while a previous-emission set from the preceding query is
still present. -/
def c8EmptyState : PreRankerState :=
  { params := cParamsT, results := [], relaxedResults := [], numSentResults := 0,
    haveFullyMatchedResult := false, currEmit := ∅,
    prevEmit := {⟨9, 9⟩}, pivotFeatures := ⟨[]⟩ }

/-- C5 witness state: one relaxed and one regular candidate in the
collection, one candidate already buffered. -/
def c5State : PreRankerState :=
  { params := cParamsT,
    results := [{ mkCand 1 1 0 0 0 0 with relaxed := true }, mkCand 1 2 0 0 0 0],
    relaxedResults := [{ mkCand 1 3 0 0 0 0 with relaxed := true }],
    numSentResults := 0, haveFullyMatchedResult := false,
    currEmit := ∅, prevEmit := ∅, pivotFeatures := ⟨[]⟩ }

/-- C2 witness: two candidates with the same id; the better one matches
two innermost tokens, the worse one only one. -/
def c2Better : PreRankerResult := { mkCand 1 1 0 0 0 0 with innermostTokensNumber := 2 }

def c2Worse : PreRankerResult := { mkCand 1 1 0 0 0 0 with innermostTokensNumber := 1 }

/-- C3/C1 witness candidates: A at distance 100 with rank 5, B at
distance 50 with rank 1, distinct ids. -/
def cA3 : PreRankerResult := mkCand 1 1 5 100 0 0

def cB3 : PreRankerResult := mkCand 1 2 1 50 0 0

/-- C6 counterexample candidates: a rank-255 candidate (whose byte
priority wraps to 1) and a rank-12 candidate one unit away. -/
def c6High : PreRankerResult := mkCand 1 0 255 0 0 0

def c6Low : PreRankerResult := mkCand 2 0 12 0 1 1

/-- C7 witness candidates: one inside the viewport, one far outside. -/
def c7In : PreRankerResult := mkCand 1 0 0 0 3 3

def c7Out : PreRankerResult := mkCand 1 1 0 0 50 3

/-- C4 inputs: a candidate in the alive partition 1 (whose popularity
table stores the byte 7 at index 0) followed by a candidate in the
unavailable partition 2. -/
def c4Alive : PreRankerResult := mkCand 1 0 0 0 0 0

def c4Dead : PreRankerResult := mkCand 2 0 0 0 0 0

theorem perm_insertSorted (less : α → α → Bool) (a : α) :
    ∀ l : List α, List.Perm (insertSorted less a l) (a :: l) := by
  intro l
  induction l with
  | nil => simp [insertSorted]
  | cons b t ih =>
    simp only [insertSorted]
    by_cases h : less a b = true
    · simp [h]
    · simp only [h, if_false, Bool.false_eq_true]
      exact (ih.cons b).trans (List.Perm.swap a b t)

theorem perm_sortBy (less : α → α → Bool) :
    ∀ l : List α, List.Perm (sortBy less l) l := by
  intro l
  induction l with
  | nil => simp [sortBy]
  | cons a t ih =>
    simpa [sortBy] using (perm_insertSorted less a (sortBy less t)).trans (ih.cons a)

theorem mem_sortBy (less : α → α → Bool) (l : List α) (x : α) :
    x ∈ sortBy less l ↔ x ∈ l :=
  (perm_sortBy less l).mem_iff

theorem length_sortBy (less : α → α → Bool) (l : List α) :
    (sortBy less l).length = l.length :=
  (perm_sortBy less l).length_eq

theorem mem_insertSorted (less : α → α → Bool) (a : α) (l : List α) (x : α) :
    x ∈ insertSorted less a l ↔ x = a ∨ x ∈ l := by
  rw [(perm_insertSorted less a l).mem_iff]
  simp

theorem pairwise_insertSorted (less : α → α → Bool)
    (htrans : ∀ a b c, less a b = true → less b c = true → less a c = true)
    (hasym : ∀ a b, less a b = true → less b a = false)
    (a : α) (l : List α)
    (h : l.Pairwise (fun x y => less y x = false)) :
    (insertSorted less a l).Pairwise (fun x y => less y x = false) := by
  induction l with
  | nil => simp [insertSorted]
  | cons b t ih =>
    rcases List.pairwise_cons.mp h with ⟨hb, ht⟩
    simp only [insertSorted]
    by_cases hab : less a b = true
    · simp only [hab, if_true]
      refine List.pairwise_cons.mpr ⟨?_, h⟩
      intro y hy
      rcases List.mem_cons.mp hy with rfl | hy
      · exact hasym a y hab
      · cases htr : less y a with
        | false => rfl
        | true => exact absurd (htrans y a b htr hab) (by simp [hb y hy])
    · simp only [hab, if_false, Bool.false_eq_true]
      refine List.pairwise_cons.mpr ⟨?_, ih ht⟩
      intro y hy
      rcases (mem_insertSorted less a t y).mp hy with rfl | hy
      · simpa using hab
      · exact hb y hy

theorem pairwise_sortBy (less : α → α → Bool)
    (htrans : ∀ a b c, less a b = true → less b c = true → less a c = true)
    (hasym : ∀ a b, less a b = true → less b a = false)
    (l : List α) :
    (sortBy less l).Pairwise (fun x y => less y x = false) := by
  induction l with
  | nil => simp [sortBy]
  | cons a t ih => exact pairwise_insertSorted less htrans hasym a (sortBy less t) ih

/-- A strict global minimum ends up at the head of the sorted list. -/
theorem sortBy_head_min (less : α → α → Bool)
    (htrans : ∀ a b c, less a b = true → less b c = true → less a c = true)
    (hasym : ∀ a b, less a b = true → less b a = false)
    (l : List α) (m : α) (hm : m ∈ l)
    (hmin : ∀ y ∈ l, y ≠ m → less m y = true) :
    ∃ t, sortBy less l = m :: t := by
  have hmem : m ∈ sortBy less l := (mem_sortBy less l m).mpr hm
  cases hs : sortBy less l with
  | nil => rw [hs] at hmem; cases hmem
  | cons z rest =>
    rw [hs] at hmem
    by_cases hz : z = m
    · exact ⟨rest, by rw [hz]⟩
    · have hzl : z ∈ l := (mem_sortBy less l z).mp (by rw [hs]; simp)
      have hlt : less m z = true := hmin z hzl hz
      have hmr : m ∈ rest := by
        rcases List.mem_cons.mp hmem with rfl | h
        · exact absurd rfl hz
        · exact h
      have hpw := pairwise_sortBy less htrans hasym l
      rw [hs] at hpw
      rcases List.pairwise_cons.mp hpw with ⟨hhead, _⟩
      exact absurd hlt (by simp [hhead m hmr])

/-- Sorting a list whose consecutive elements are already strictly
increasing is the identity. -/
theorem sortBy_eq_self_of_chain (less : α → α → Bool) :
    ∀ l : List α, l.Chain' (fun a b => less a b = true) → sortBy less l = l := by
  intro l
  induction l with
  | nil => simp [sortBy]
  | cons a t ih =>
    intro h
    have hch : t.Chain' (fun a b => less a b = true) := h.tail
    simp only [sortBy, ih hch]
    cases t with
    | nil => simp [insertSorted]
    | cons b bs =>
      have hab : less a b = true := List.chain'_cons.mp h |>.1
      simp [insertSorted, hab]

theorem uniqueAdj_sublist (eq : α → α → Bool) :
    ∀ l : List α, (uniqueAdj eq l).Sublist l := by
  intro l
  induction l using uniqueAdj.induct eq with
  | case1 => simp [uniqueAdj]
  | case2 a => simp [uniqueAdj]
  | case3 a b l heq ih =>
    rw [uniqueAdj, if_pos heq]
    exact ih.trans ((List.sublist_cons_self b l).cons_cons a)
  | case4 a b l heq ih =>
    rw [uniqueAdj, if_neg heq]
    exact ih.cons_cons a

theorem uniqueAdj_subset (eq : α → α → Bool) (l : List α) :
    ∀ x ∈ uniqueAdj eq l, x ∈ l :=
  fun _ hx => (uniqueAdj_sublist eq l).subset hx

theorem uniqueAdj_cons (eq : α → α → Bool) :
    ∀ (l : List α) (a : α), ∃ t, uniqueAdj eq (a :: l) = a :: t := by
  intro l
  induction l with
  | nil => exact fun a => ⟨[], by simp [uniqueAdj]⟩
  | cons b t ih =>
    intro a
    by_cases h : eq a b = true
    · rcases ih a with ⟨t', ht'⟩
      exact ⟨t', by rw [uniqueAdj, if_pos h]; exact ht'⟩
    · exact ⟨uniqueAdj eq (b :: t), by rw [uniqueAdj, if_neg h]⟩

/-- Adjacent elements of the output of `uniqueAdj` are inequivalent. -/
theorem uniqueAdj_chain_ne (eq : α → α → Bool) :
    ∀ l : List α, (uniqueAdj eq l).Chain' (fun x y => eq x y = false) := by
  intro l
  induction l using uniqueAdj.induct eq with
  | case1 => simp [uniqueAdj]
  | case2 a => simp [uniqueAdj]
  | case3 a b l heq ih => rw [uniqueAdj, if_pos heq]; exact ih
  | case4 a b l heq ih =>
    rw [uniqueAdj, if_neg heq]
    rcases uniqueAdj_cons eq l b with ⟨t, ht⟩
    rw [ht]
    rw [ht] at ih
    exact List.chain'_cons.mpr ⟨by simpa using heq, ih⟩

theorem uniqueAdj_eq_self (eq : α → α → Bool) :
    ∀ l : List α, l.Chain' (fun x y => eq x y = false) → uniqueAdj eq l = l := by
  intro l
  induction l using uniqueAdj.induct eq with
  | case1 => simp [uniqueAdj]
  | case2 a => simp [uniqueAdj]
  | case3 a b l heq ih =>
    intro h
    have : eq a b = false := (List.chain'_cons.mp h).1
    rw [this] at heq; cases heq
  | case4 a b l heq ih =>
    intro h
    rw [uniqueAdj, if_neg heq, ih (List.chain'_cons.mp h).2]

/-- Every element of the input has an equivalent representative in the
output of `uniqueAdj`. -/
theorem uniqueAdj_rep (eq : α → α → Bool)
    (hrefl : ∀ a, eq a a = true)
    (htrans : ∀ a b c, eq a b = true → eq b c = true → eq a c = true) :
    ∀ l : List α, ∀ x ∈ l, ∃ z ∈ uniqueAdj eq l, eq z x = true := by
  intro l
  induction l using uniqueAdj.induct eq with
  | case1 => intro x hx; cases hx
  | case2 a =>
    intro x hx
    rcases List.mem_singleton.mp hx with rfl
    exact ⟨x, by simp [uniqueAdj], hrefl x⟩
  | case3 a b l heq ih =>
    intro x hx
    rw [uniqueAdj, if_pos heq]
    rcases List.mem_cons.mp hx with rfl | hx
    · exact ih x (List.mem_cons_self x l)
    · rcases List.mem_cons.mp hx with rfl | hx
      · rcases ih a (List.mem_cons_self a l) with ⟨z, hz, hza⟩
        exact ⟨z, hz, htrans z a x hza heq⟩
      · exact ih x (List.mem_cons_of_mem a hx)
  | case4 a b l heq ih =>
    intro x hx
    rw [uniqueAdj, if_neg heq]
    rcases List.mem_cons.mp hx with rfl | hx
    · exact ⟨x, List.mem_cons_self x _, hrefl x⟩
    · rcases ih x hx with ⟨z, hz, hzx⟩
      exact ⟨z, List.mem_cons_of_mem a hz, hzx⟩

theorem dedupByKey_subset {β : Type} [DecidableEq β] (key : α → β) :
    ∀ l : List α, ∀ x ∈ dedupByKey key l, x ∈ l := by
  intro l
  induction l using dedupByKey.induct key with
  | case1 => intro x hx; simp [dedupByKey] at hx
  | case2 a rest ih =>
    intro x hx
    rw [dedupByKey] at hx
    rcases List.mem_cons.mp hx with rfl | hx
    · exact List.mem_cons_self x _
    · exact List.mem_cons_of_mem a (List.mem_of_mem_filter (ih x hx))

theorem dedupByKey_length_le {β : Type} [DecidableEq β] (key : α → β) :
    ∀ l : List α, (dedupByKey key l).length ≤ l.length := by
  intro l
  induction l using dedupByKey.induct key with
  | case1 => simp [dedupByKey]
  | case2 a rest ih =>
    rw [dedupByKey]
    simp only [List.length_cons]
    exact Nat.succ_le_succ (ih.trans (List.length_filter_le _ _))

theorem dedupByKey_pairwise {β : Type} [DecidableEq β] (key : α → β) :
    ∀ l : List α, (dedupByKey key l).Pairwise (fun x y => key x ≠ key y) := by
  intro l
  induction l using dedupByKey.induct key with
  | case1 => simp [dedupByKey]
  | case2 a rest ih =>
    rw [dedupByKey]
    refine List.pairwise_cons.mpr ⟨?_, ih⟩
    intro y hy
    have := List.of_mem_filter (dedupByKey_subset key _ y hy)
    simp at this
    exact fun h => this h.symm

/-- An element whose key is unrepresented by any other element of the
list survives `dedupByKey`. -/
theorem mem_dedupByKey {β : Type} [DecidableEq β] (key : α → β) :
    ∀ l : List α, ∀ x ∈ l, (∀ z ∈ l, key z = key x → z = x) → x ∈ dedupByKey key l := by
  intro l
  induction l using dedupByKey.induct key with
  | case1 => intro x hx; simp [dedupByKey] at hx
  | case2 a rest ih =>
    intro x hx huniq
    rw [dedupByKey]
    rcases List.mem_cons.mp hx with rfl | hx
    · exact List.mem_cons_self x _
    · by_cases hkey : key x = key a
      · have : x = a := by
          have := huniq a (List.mem_cons_self a rest) hkey.symm
          exact this.symm
        rw [this]; exact List.mem_cons_self a _
      · refine List.mem_cons_of_mem a (ih x ?_ ?_)
        · exact List.mem_filter.mpr ⟨hx, by simpa using hkey⟩
        · intro z hz hzx
          exact huniq z (List.mem_cons_of_mem a (List.mem_of_mem_filter hz)) hzx

theorem FeatureID.eq_iff (x y : FeatureID) :
    x = y ↔ x.mwmId = y.mwmId ∧ x.index = y.index := by
  cases x; cases y; simp

theorem FeatureID.less_iff (a b : FeatureID) : FeatureID.less a b = true ↔ idLt a b := by
  simp [FeatureID.less, idLt]

theorem lessForUnique_iff (a b : PreRankerResult) : lessForUnique a b = true ↔
    (¬(a.id.mwmId = b.id.mwmId ∧ a.id.index = b.id.index) ∧
      (a.id.mwmId < b.id.mwmId ∨ (a.id.mwmId = b.id.mwmId ∧ a.id.index < b.id.index))) ∨
    ((a.id.mwmId = b.id.mwmId ∧ a.id.index = b.id.index) ∧
      (b.innermostTokensNumber < a.innermostTokensNumber ∨
        (a.innermostTokensNumber = b.innermostTokensNumber ∧
          (b.matchedTokensNumber < a.matchedTokensNumber ∨
            (a.matchedTokensNumber = b.matchedTokensNumber ∧
              a.innermostTokenRangeBegin < b.innermostTokenRangeBegin))))) := by
  by_cases hid : a.id = b.id
  · have hc := (FeatureID.eq_iff a.id b.id).mp hid
    simp only [lessForUnique, hid, ne_eq, not_true_eq_false, if_false, ite_not]
    by_cases h1 : a.innermostTokensNumber = b.innermostTokensNumber
    · by_cases h2 : a.matchedTokensNumber = b.matchedTokensNumber
      · simp [h1, h2, hc]
      · simp [h1, h2, hc]
    · simp [h1, hc]
  · have hc : ¬(a.id.mwmId = b.id.mwmId ∧ a.id.index = b.id.index) := by
      intro h; exact hid ((FeatureID.eq_iff a.id b.id).mpr h)
    simp [lessForUnique, hid, FeatureID.less_iff, idLt, hc]

theorem lessForUnique_irrefl (a : PreRankerResult) : lessForUnique a a = false := by
  rw [Bool.eq_false_iff]
  intro h
  rw [lessForUnique_iff] at h
  omega

theorem lessForUnique_trans (a b c : PreRankerResult)
    (h1 : lessForUnique a b = true) (h2 : lessForUnique b c = true) :
    lessForUnique a c = true := by
  rw [lessForUnique_iff] at h1 h2 ⊢
  omega

theorem lessForUnique_asym (a b : PreRankerResult)
    (h : lessForUnique a b = true) : lessForUnique b a = false := by
  rw [Bool.eq_false_iff]
  intro h2
  rw [lessForUnique_iff] at h h2
  omega

theorem lessForUnique_negtrans (a b c : PreRankerResult)
    (h1 : lessForUnique b a = false) (h2 : lessForUnique c b = false) :
    lessForUnique c a = false := by
  rw [Bool.eq_false_iff] at h1 h2 ⊢
  simp only [ne_eq, lessForUnique_iff] at h1 h2
  intro h3
  rw [lessForUnique_iff] at h3
  omega

/-- If `x` is not below `y` and their ids differ, then `y`'s id is strictly
smaller: `lessForUnique` is id-major. -/
theorem lessForUnique_false_idLt (x y : PreRankerResult)
    (h1 : lessForUnique x y = false) (h2 : x.id ≠ y.id) : idLt y.id x.id := by
  rw [Bool.eq_false_iff] at h1
  simp only [ne_eq, lessForUnique_iff] at h1
  have h2c : ¬(x.id.mwmId = y.id.mwmId ∧ x.id.index = y.id.index) := by
    intro h; exact h2 ((FeatureID.eq_iff x.id y.id).mpr h)
  simp only [idLt]
  omega

theorem idLt_trans {a b c : FeatureID} (h1 : idLt a b) (h2 : idLt b c) : idLt a c := by
  simp only [idLt] at *; omega

theorem idLt_irrefl {a : FeatureID} (h : idLt a a) : False := by
  simp only [idLt] at h; omega

theorem idLt_ne {a b : FeatureID} (h : idLt a b) : a ≠ b := by
  intro he
  exact idLt_irrefl (he ▸ h)

theorem LessDistance_trans (a b c : PreRankerResult)
    (h1 : LessDistance a b = true) (h2 : LessDistance b c = true) :
    LessDistance a c = true := by
  simp only [LessDistance, decide_eq_true_eq] at *
  exact h1.trans h2

theorem LessDistance_asym (a b : PreRankerResult)
    (h : LessDistance a b = true) : LessDistance b a = false := by
  simp only [LessDistance, decide_eq_true_eq] at h
  simpa [LessDistance] using le_of_lt h

theorem LessRankAndPopularity_iff (a b : PreRankerResult) :
    LessRankAndPopularity a b = true ↔
      b.rank < a.rank ∨ (a.rank = b.rank ∧ b.popularity < a.popularity) := by
  by_cases h : a.rank = b.rank
  · simp [LessRankAndPopularity, h]
  · simp [LessRankAndPopularity, h]

theorem LessRankAndPopularity_trans (a b c : PreRankerResult)
    (h1 : LessRankAndPopularity a b = true) (h2 : LessRankAndPopularity b c = true) :
    LessRankAndPopularity a c = true := by
  rw [LessRankAndPopularity_iff] at h1 h2 ⊢
  omega

theorem LessRankAndPopularity_asym (a b : PreRankerResult)
    (h : LessRankAndPopularity a b = true) : LessRankAndPopularity b a = false := by
  rw [Bool.eq_false_iff]
  intro h2
  rw [LessRankAndPopularity_iff] at h h2
  omega

theorem LessByExactMatch_trans (a b c : PreRankerResult)
    (h1 : LessByExactMatch a b = true) (h2 : LessByExactMatch b c = true) :
    LessByExactMatch a c = true := by
  simp only [LessByExactMatch, Bool.and_eq_true, Bool.not_eq_true'] at *
  exact ⟨h1.1, h2.2⟩

theorem LessByExactMatch_asym (a b : PreRankerResult)
    (h : LessByExactMatch a b = true) : LessByExactMatch b a = false := by
  simp only [LessByExactMatch, Bool.and_eq_true, Bool.not_eq_true'] at h
  simp [LessByExactMatch, h.1, h.2]

theorem LessFeatureID_trans (a b c : PreRankerResult)
    (h1 : LessFeatureID a b = true) (h2 : LessFeatureID b c = true) :
    LessFeatureID a c = true := by
  simp only [LessFeatureID, FeatureID.less_iff] at *
  exact idLt_trans h1 h2

theorem LessFeatureID_asym (a b : PreRankerResult)
    (h : LessFeatureID a b = true) : LessFeatureID b a = false := by
  rw [Bool.eq_false_iff]
  intro h2
  simp only [LessFeatureID, FeatureID.less_iff, idLt] at h h2
  omega

theorem lessForUnique_of_idLt (x y : PreRankerResult) (h : idLt x.id y.id) :
    lessForUnique x y = true := by
  rw [lessForUnique_iff]
  simp only [idLt] at h
  omega

/-- Every survivor of the dedup pass is minimal (under `lessForUnique`)
among the elements of the sorted list that share its id. -/
theorem uniqueAdj_min_lfu :
    ∀ l : List PreRankerResult,
      l.Pairwise (fun x y => lessForUnique y x = false) →
      ∀ y ∈ uniqueAdj EqualsById l, ∀ x ∈ l, x.id = y.id → lessForUnique x y = false := by
  intro l
  induction l using uniqueAdj.induct EqualsById with
  | case1 => intro _ y hy; simp [uniqueAdj] at hy
  | case2 a =>
    intro _ y hy x hx hid
    simp [uniqueAdj] at hy
    rcases List.mem_singleton.mp hx with rfl
    rw [hy]
    exact lessForUnique_irrefl x
  | case3 a b l heq ih =>
    intro hpw y hy x hx hid
    rw [uniqueAdj, if_pos heq] at hy
    have hpw' : (a :: l).Pairwise (fun x y => lessForUnique y x = false) :=
      List.Pairwise.sublist ((List.sublist_cons_self b l).cons_cons a) hpw
    rcases List.mem_cons.mp hx with rfl | hx2
    · exact ih hpw' y hy x (List.mem_cons_self x l) hid
    · rcases List.mem_cons.mp hx2 with rfl | hx3
      · have hab : a.id = x.id := of_decide_eq_true heq
        have hay : a.id = y.id := hab.trans hid
        have h1 : lessForUnique a y = false := ih hpw' y hy a (List.mem_cons_self a l) hay
        have h2 : lessForUnique x a = false :=
          (List.pairwise_cons.mp hpw).1 x (List.mem_cons_self x l)
        exact lessForUnique_negtrans y a x h1 h2
      · exact ih hpw' y hy x (List.mem_cons_of_mem a hx3) hid
  | case4 a b l heq ih =>
    intro hpw y hy x hx hid
    rw [uniqueAdj, if_neg heq] at hy
    have hpwt : (b :: l).Pairwise (fun x y => lessForUnique y x = false) :=
      (List.pairwise_cons.mp hpw).2
    have hhead := (List.pairwise_cons.mp hpw).1
    rcases List.mem_cons.mp hy with rfl | hy2
    · rcases List.mem_cons.mp hx with rfl | hx2
      · exact lessForUnique_irrefl x
      · exact hhead x hx2
    · rcases List.mem_cons.mp hx with rfl | hx2
      · exfalso
        have hne : x.id ≠ b.id := fun h => heq (by simp [EqualsById, h])
        have hba : lessForUnique b x = false := hhead b (List.mem_cons_self b l)
        have hlt : idLt x.id b.id := lessForUnique_false_idLt b x hba (fun h => hne h.symm)
        have hyin : y ∈ b :: l := uniqueAdj_subset EqualsById (b :: l) y hy2
        rcases List.mem_cons.mp hyin with rfl | hy3
        · exact hne hid
        · have hyb : lessForUnique y b = false := (List.pairwise_cons.mp hpwt).1 y hy3
          by_cases hyid : y.id = b.id
          · exact hne (hid.trans hyid)
          · have hlt2 : idLt b.id y.id := lessForUnique_false_idLt y b hyb hyid
            have hlt3 : idLt x.id y.id := idLt_trans hlt hlt2
            rw [hid] at hlt3
            exact idLt_irrefl hlt3
      · exact ih hpwt y hy2 x hx2 hid

/-- After dedup of a sorted list, all surviving ids are pairwise
distinct. -/
theorem uniqueAdj_ids_pairwise :
    ∀ l : List PreRankerResult,
      l.Pairwise (fun x y => lessForUnique y x = false) →
      (uniqueAdj EqualsById l).Pairwise (fun x y => x.id ≠ y.id) := by
  intro l
  induction l using uniqueAdj.induct EqualsById with
  | case1 => intro _; simp [uniqueAdj]
  | case2 a => intro _; simp [uniqueAdj]
  | case3 a b l heq ih =>
    intro hpw
    rw [uniqueAdj, if_pos heq]
    exact ih (List.Pairwise.sublist ((List.sublist_cons_self b l).cons_cons a) hpw)
  | case4 a b l heq ih =>
    intro hpw
    rw [uniqueAdj, if_neg heq]
    have hpwt : (b :: l).Pairwise (fun x y => lessForUnique y x = false) :=
      (List.pairwise_cons.mp hpw).2
    have hhead := (List.pairwise_cons.mp hpw).1
    refine List.pairwise_cons.mpr ⟨?_, ih hpwt⟩
    intro y hy
    have hne : a.id ≠ b.id := fun h => heq (by simp [EqualsById, h])
    have hba : lessForUnique b a = false := hhead b (List.mem_cons_self b l)
    have hlt : idLt a.id b.id := lessForUnique_false_idLt b a hba (fun h => hne h.symm)
    have hyin : y ∈ b :: l := uniqueAdj_subset EqualsById (b :: l) y hy
    rcases List.mem_cons.mp hyin with rfl | hy3
    · exact hne
    · have hyb : lessForUnique y b = false := (List.pairwise_cons.mp hpwt).1 y hy3
      by_cases hyid : y.id = b.id
      · rw [← hyid] at hlt
        exact idLt_ne hlt
      · have hlt2 : idLt b.id y.id := lessForUnique_false_idLt y b hyb hyid
        exact idLt_ne (idLt_trans hlt hlt2)

theorem sortBy_lfu_pairwise (l : List PreRankerResult) :
    (sortBy lessForUnique l).Pairwise (fun x y => lessForUnique y x = false) :=
  pairwise_sortBy lessForUnique lessForUnique_trans lessForUnique_asym l

theorem SortUnique_ids_pairwise (l : List PreRankerResult) :
    (SortUnique l).Pairwise (fun x y => x.id ≠ y.id) :=
  uniqueAdj_ids_pairwise _ (sortBy_lfu_pairwise l)

theorem SortUnique_subset (l : List PreRankerResult) :
    ∀ x ∈ SortUnique l, x ∈ l := by
  intro x hx
  exact (mem_sortBy lessForUnique l x).mp
    (uniqueAdj_subset EqualsById (sortBy lessForUnique l) x hx)

theorem SortUnique_min (l : List PreRankerResult) :
    ∀ y ∈ SortUnique l, ∀ x ∈ l, x.id = y.id → lessForUnique x y = false := by
  intro y hy x hx hid
  exact uniqueAdj_min_lfu _ (sortBy_lfu_pairwise l) y hy x
    ((mem_sortBy lessForUnique l x).mpr hx) hid

theorem SortUnique_rep (l : List PreRankerResult) :
    ∀ x ∈ l, ∃ z ∈ SortUnique l, z.id = x.id := by
  intro x hx
  have hrefl : ∀ a : PreRankerResult, EqualsById a a = true := by
    intro a; simp [EqualsById]
  have htr : ∀ a b c : PreRankerResult,
      EqualsById a b = true → EqualsById b c = true → EqualsById a c = true := by
    intro a b c h1 h2
    simp [EqualsById] at *
    exact h1.trans h2
  rcases uniqueAdj_rep EqualsById hrefl htr (sortBy lessForUnique l) x
      ((mem_sortBy lessForUnique l x).mpr hx) with ⟨z, hz, hzx⟩
  exact ⟨z, hz, of_decide_eq_true hzx⟩

theorem SortUnique_length_le (l : List PreRankerResult) :
    (SortUnique l).length ≤ l.length :=
  le_of_le_of_eq ((uniqueAdj_sublist EqualsById (sortBy lessForUnique l)).length_le)
    (length_sortBy lessForUnique l)

theorem chain'_and {R S : α → α → Prop} :
    ∀ l : List α, l.Chain' R → l.Chain' S → l.Chain' (fun a b => R a b ∧ S a b) := by
  intro l
  induction l with
  | nil => intro _ _; simp
  | cons a t ih =>
    intro hr hs
    cases t with
    | nil => simp
    | cons b t2 =>
      rcases List.chain'_cons.mp hr with ⟨hr1, hr2⟩
      rcases List.chain'_cons.mp hs with ⟨hs1, hs2⟩
      exact List.chain'_cons.mpr ⟨⟨hr1, hs1⟩, ih hr2 hs2⟩

/-- On a deduplicated (id-nodup) input, `SortUnique` is a permutation:
nothing is dropped, the list is merely sorted. -/
theorem SortUnique_perm_of_nodup (l : List PreRankerResult)
    (hnd : l.Pairwise (fun x y => x.id ≠ y.id)) :
    SortUnique l = sortBy lessForUnique l := by
  have hpw : (sortBy lessForUnique l).Pairwise (fun x y => x.id ≠ y.id) :=
    (List.Perm.pairwise_iff (fun h => Ne.symm h) (perm_sortBy lessForUnique l)).mpr hnd
  have hch : (sortBy lessForUnique l).Chain' (fun x y => EqualsById x y = false) := by
    have := hpw.chain'
    exact this.imp (fun h => by simpa [EqualsById] using h)
  exact uniqueAdj_eq_self EqualsById _ hch

/-- Consecutive elements of `SortUnique` output are strictly increasing
under the dedup comparator. -/
theorem SortUnique_chain_strict (l : List PreRankerResult) :
    (SortUnique l).Chain' (fun a b => lessForUnique a b = true) := by
  have hpw : (SortUnique l).Pairwise (fun x y => lessForUnique y x = false) :=
    List.Pairwise.sublist (uniqueAdj_sublist EqualsById (sortBy lessForUnique l))
      (sortBy_lfu_pairwise l)
  have hne : (SortUnique l).Chain' (fun x y => EqualsById x y = false) :=
    uniqueAdj_chain_ne EqualsById (sortBy lessForUnique l)
  have hc := chain'_and (SortUnique l) hpw.chain' hne
  refine hc.imp ?_
  intro a b hab
  have hid : a.id ≠ b.id := by
    intro h
    simp [EqualsById, h] at hab
  by_cases h : lessForUnique a b = true
  · exact h
  · have := lessForUnique_false_idLt a b (Bool.eq_false_iff.mpr h) hid
    exfalso
    have h2 := lessForUnique_of_idLt b a this
    rw [hab.1] at h2
    cases h2

/-- `SortUnique` is idempotent. -/
theorem SortUnique_idem (l : List PreRankerResult) :
    SortUnique (SortUnique l) = SortUnique l := by
  have h1 : sortBy lessForUnique (SortUnique l) = SortUnique l :=
    sortBy_eq_self_of_chain lessForUnique (SortUnique l) (SortUnique_chain_strict l)
  have h2 : (SortUnique l).Chain' (fun x y => EqualsById x y = false) :=
    uniqueAdj_chain_ne EqualsById (sortBy lessForUnique l)
  rw [SortUnique, h1]
  exact uniqueAdj_eq_self EqualsById _ h2

theorem SortUnique_length_of_nodup (l : List PreRankerResult)
    (hnd : l.Pairwise (fun x y => x.id ≠ y.id)) :
    (SortUnique l).length = l.length := by
  rw [SortUnique_perm_of_nodup l hnd]
  exact length_sortBy lessForUnique l

theorem sweepNear_symm (eps p q : Point) (h : sweepNear eps p q = true) :
    sweepNear eps q p = true := by
  simp only [sweepNear, Bool.and_eq_true, decide_eq_true_eq] at *
  rw [abs_sub_comm q.x p.x, abs_sub_comm q.y p.y]
  exact h

theorem sweepBeats_asym (prevEmit : Finset FeatureID) (rs : List PreRankerResult)
    (i j : Nat) (h : sweepBeats prevEmit rs i j = true) :
    sweepBeats prevEmit rs j i = false := by
  simp only [sweepBeats, decide_eq_true_eq] at h ⊢
  simp only [decide_eq_false_iff_not]
  omega

theorem mem_iterate_sweepExpand (eps : Point) (rs : List PreRankerResult) (x : Nat) :
    ∀ (n : Nat) (s : List Nat), x ∈ s → x ∈ Nat.iterate (sweepExpand eps rs) n s := by
  intro n
  induction n with
  | zero => intro s hs; simpa using hs
  | succ m ih =>
    intro s hs
    rw [Function.iterate_succ_apply]
    exact ih (sweepExpand eps rs s) (List.mem_append_left _ hs)

theorem sameCluster_of_nbr (eps : Point) (rs : List PreRankerResult) (i j : Nat)
    (hi : i < rs.length) (hnbr : sweepNbr eps rs i j = true) :
    sameCluster eps rs i j = true := by
  have hj : j < rs.length := by
    simp only [sweepNbr, Bool.and_eq_true, decide_eq_true_eq] at hnbr
    exact hnbr.1.2
  rcases Nat.exists_eq_succ_of_ne_zero (Nat.pos_iff_ne_zero.mp (Nat.lt_of_le_of_lt (Nat.zero_le i) hi)) with ⟨m, hm⟩
  simp only [sameCluster, sweepReach, decide_eq_true_eq, hm]
  rw [Function.iterate_succ_apply]
  apply mem_iterate_sweepExpand
  simp only [sweepExpand, List.mem_append, List.mem_filter, List.mem_range]
  right
  refine ⟨hj, ?_⟩
  simp only [List.any_eq_true]
  exact ⟨i, List.mem_singleton_self i, hnbr⟩

theorem sweepSurvives_beats (eps : Point) (prevEmit : Finset FeatureID)
    (rs : List PreRankerResult) (i j : Nat)
    (hj : j < rs.length) (hne : j ≠ i)
    (hcl : sameCluster eps rs i j = true)
    (hs : sweepSurvives eps prevEmit rs i = true) :
    sweepBeats prevEmit rs i j = true := by
  simp only [sweepSurvives, Bool.and_eq_true, List.all_eq_true] at hs
  have := hs.2 j (List.mem_range.mpr hj)
  simp only [Bool.or_eq_true, decide_eq_true_eq, Bool.not_eq_true'] at this
  rcases this with (h | h) | h
  · exact absurd h hne
  · rw [hcl] at h; cases h
  · exact h

theorem SweepNearbyResults_subset (eps : Point) (prevEmit : Finset FeatureID)
    (results : List PreRankerResult) :
    ∀ x ∈ SweepNearbyResults eps prevEmit results, x ∈ results := by
  intro x hx
  simp only [SweepNearbyResults, List.mem_map, List.mem_filter, List.mem_range] at hx
  rcases hx with ⟨i, ⟨hi, _⟩, rfl⟩
  rw [List.getD_eq_get results default hi]
  exact List.get_mem results _ _

theorem length_le_of_nodup_subset {α : Type} [DecidableEq α] {l1 l2 : List α}
    (h1 : l1.Nodup) (hsub : ∀ x ∈ l1, x ∈ l2) : l1.length ≤ l2.length := by
  calc l1.length = l1.toFinset.card := (List.toFinset_card_of_nodup h1).symm
    _ ≤ l2.toFinset.card :=
        Finset.card_le_card (fun x hx => List.mem_toFinset.mpr (hsub x (List.mem_toFinset.mp hx)))
    _ ≤ l2.length := l2.toFinset_card_le

theorem mem_of_foldl_insert (l : List PreRankerResult) :
    ∀ (s : Finset FeatureID) (a : FeatureID), a ∈ s →
      a ∈ l.foldl (fun acc r => insert r.id acc) s := by
  induction l with
  | nil => intro s a ha; simpa using ha
  | cons b t ih =>
    intro s a ha
    exact ih (insert b.id s) a (Finset.mem_insert_of_mem ha)

theorem mem_foldl_insert (l : List PreRankerResult) :
    ∀ (s : Finset FeatureID) (x : PreRankerResult), x ∈ l →
      x.id ∈ l.foldl (fun acc r => insert r.id acc) s := by
  induction l with
  | nil => intro _ x hx; cases hx
  | cons b t ih =>
    intro s x hx
    rcases List.mem_cons.mp hx with rfl | hx
    · exact mem_of_foldl_insert t (insert x.id s) x.id (Finset.mem_insert_self x.id s)
    · exact ih (insert b.id s) x hx

theorem ne_id_symm : Symmetric (fun a b : PreRankerResult => a.id ≠ b.id) :=
  fun _ _ h => Ne.symm h

theorem unique_by_id_of_pairwise {rs : List PreRankerResult} {x z : PreRankerResult}
    (hnd : rs.Pairwise (fun a b => a.id ≠ b.id))
    (hx : x ∈ rs) (hz : z ∈ rs) (hid : z.id = x.id) : z = x := by
  by_contra hne
  exact (List.Pairwise.forall ne_id_symm hnd) hz hx hne hid

theorem pairwise_ids_sortBy (less : PreRankerResult → PreRankerResult → Bool)
    {rs : List PreRankerResult} (hnd : rs.Pairwise (fun a b => a.id ≠ b.id)) :
    (sortBy less rs).Pairwise (fun a b => a.id ≠ b.id) :=
  (List.Perm.pairwise_iff (fun h => Ne.symm h) (perm_sortBy less rs)).mpr hnd

theorem nodup_of_pairwise_ids {l : List PreRankerResult}
    (h : l.Pairwise (fun a b => a.id ≠ b.id)) : l.Nodup := by
  refine h.imp ?_
  intro a b hne he
  rw [he] at hne
  exact hne rfl

theorem selectOut_subset (concat rs : List PreRankerResult)
    (hsub : ∀ z ∈ concat, z ∈ rs) :
    ∀ x ∈ sortBy LessFeatureID (dedupByKey PreRankerResult.id concat), x ∈ rs := by
  intro x hx
  exact hsub x (dedupByKey_subset _ _ x ((mem_sortBy _ _ x).mp hx))

theorem selectOut_pairwise (concat : List PreRankerResult) :
    (sortBy LessFeatureID (dedupByKey PreRankerResult.id concat)).Pairwise
      (fun a b => a.id ≠ b.id) :=
  (List.Perm.pairwise_iff (fun h => Ne.symm h)
    (perm_sortBy LessFeatureID (dedupByKey PreRankerResult.id concat))).mpr
    (dedupByKey_pairwise PreRankerResult.id concat)

theorem selectOut_length_le_concat (concat : List PreRankerResult) :
    (sortBy LessFeatureID (dedupByKey PreRankerResult.id concat)).length ≤ concat.length := by
  rw [length_sortBy]
  exact dedupByKey_length_le PreRankerResult.id concat

theorem mem_selectOut {concat rs : List PreRankerResult} {x : PreRankerResult}
    (hnd : rs.Pairwise (fun a b => a.id ≠ b.id))
    (hsub : ∀ z ∈ concat, z ∈ rs) (hx : x ∈ rs) (hxc : x ∈ concat) :
    x ∈ sortBy LessFeatureID (dedupByKey PreRankerResult.id concat) := by
  rw [mem_sortBy]
  refine mem_dedupByKey PreRankerResult.id concat x hxc ?_
  intro z hz hzx
  exact unique_by_id_of_pairwise hnd hx (hsub z hz) hzx

theorem selectOut_length_ge {t1 concat rs : List PreRankerResult}
    (hnd : rs.Pairwise (fun a b => a.id ≠ b.id))
    (hsub : ∀ z ∈ concat, z ∈ rs)
    (ht1nd : t1.Pairwise (fun a b => a.id ≠ b.id))
    (ht1c : ∀ x ∈ t1, x ∈ concat) :
    t1.length ≤ (sortBy LessFeatureID (dedupByKey PreRankerResult.id concat)).length := by
  refine length_le_of_nodup_subset (nodup_of_pairwise_ids ht1nd) ?_
  intro x hx
  exact mem_selectOut hnd hsub (hsub x (ht1c x hx)) (ht1c x hx)

theorem head_mem_take {l : List α} {a : α} {B : Nat}
    (h : ∃ t, l = a :: t) (hB : 0 < B) : a ∈ l.take B := by
  rcases h with ⟨t, rfl⟩
  cases B with
  | zero => cases hB
  | succ m => simp [List.take_succ_cons]

theorem take_sort_subset (less : PreRankerResult → PreRankerResult → Bool)
    (B : Nat) (rs : List PreRankerResult) :
    ∀ x ∈ (sortBy less rs).take B, x ∈ rs :=
  fun x hx => (mem_sortBy less rs x).mp (List.take_subset _ _ hx)

theorem batchPasses_subset (env : Env) (params : Params) (rs : List PreRankerResult) :
    ∀ x ∈ batchPasses env params rs, x ∈ rs := by
  intro x hx
  cases hcat : params.categorialRequest with
  | false =>
    simp only [batchPasses, hcat, Bool.not_false, if_true] at hx
    refine selectOut_subset _ rs ?_ x hx
    intro z hz
    rcases List.mem_append.mp hz with hz2 | hz2
    · rcases List.mem_append.mp hz2 with hz3 | hz3
      · exact take_sort_subset _ _ _ z hz3
      · exact take_sort_subset _ _ _ z hz3
    · exact take_sort_subset _ _ _ z hz2
  | true =>
    simp only [batchPasses, hcat, Bool.not_true, Bool.false_eq_true, if_false] at hx
    refine selectOut_subset _ rs ?_ x hx
    intro z hz
    rcases List.mem_append.mp hz with hz2 | hz2
    · exact take_sort_subset _ _ _ z hz2
    · exact take_sort_subset _ _ _ z hz2

theorem batchPasses_pairwise (env : Env) (params : Params) (rs : List PreRankerResult) :
    (batchPasses env params rs).Pairwise (fun a b => a.id ≠ b.id) := by
  cases hcat : params.categorialRequest with
  | false =>
    simp only [batchPasses, hcat, Bool.not_false, if_true]
    exact selectOut_pairwise _
  | true =>
    simp only [batchPasses, hcat, Bool.not_true, Bool.false_eq_true, if_false]
    exact selectOut_pairwise _

theorem batchPasses_length_le_triple (env : Env) (params : Params)
    (rs : List PreRankerResult) :
    (batchPasses env params rs).length ≤ 3 * params.batchSize := by
  cases hcat : params.categorialRequest with
  | false =>
    simp only [batchPasses, hcat, Bool.not_false, if_true]
    refine le_trans (selectOut_length_le_concat _) ?_
    simp only [List.length_append]
    have h1 := List.length_take_le params.batchSize (sortBy LessDistance rs)
    have h2 := List.length_take_le params.batchSize (sortBy LessRankAndPopularity rs)
    have h3 := List.length_take_le params.batchSize (sortBy LessByExactMatch rs)
    omega
  | true =>
    simp only [batchPasses, hcat, Bool.not_true, Bool.false_eq_true, if_false]
    refine le_trans (selectOut_length_le_concat _) ?_
    simp only [List.length_append]
    have h1 := List.length_take_le params.batchSize (sortBy LessDistance rs)
    have h2 := List.length_take_le params.batchSize
      (sortBy (CategoriesComparator (match params.position with
        | some p => params.viewport.IsPointInside p
        | none => false)
        (decide (env.dist ⟨params.viewport.minX, params.viewport.maxY⟩
          ⟨params.viewport.maxX, params.viewport.minY⟩ < 2 * 2500)) params.viewport) rs)
    omega

theorem batchPasses_length_le_input (env : Env) (params : Params)
    (rs : List PreRankerResult) (hnd : rs.Pairwise (fun a b => a.id ≠ b.id)) :
    (batchPasses env params rs).length ≤ rs.length :=
  length_le_of_nodup_subset (nodup_of_pairwise_ids (batchPasses_pairwise env params rs))
    (batchPasses_subset env params rs)

theorem batchPasses_length_ge (env : Env) (params : Params)
    (rs : List PreRankerResult) (hnd : rs.Pairwise (fun a b => a.id ≠ b.id))
    (hgt : params.batchSize < rs.length) :
    params.batchSize ≤ (batchPasses env params rs).length := by
  have ht1len : ((sortBy LessDistance rs).take params.batchSize).length = params.batchSize := by
    rw [List.length_take, length_sortBy]
    omega
  have ht1nd : ((sortBy LessDistance rs).take params.batchSize).Pairwise
      (fun a b => a.id ≠ b.id) :=
    List.Pairwise.sublist (List.take_sublist _ _) (pairwise_ids_sortBy LessDistance hnd)
  cases hcat : params.categorialRequest with
  | false =>
    simp only [batchPasses, hcat, Bool.not_false, if_true]
    refine le_trans (le_of_eq ht1len.symm) (selectOut_length_ge hnd ?_ ht1nd ?_)
    · intro z hz
      rcases List.mem_append.mp hz with hz2 | hz2
      · rcases List.mem_append.mp hz2 with hz3 | hz3
        · exact take_sort_subset _ _ _ z hz3
        · exact take_sort_subset _ _ _ z hz3
      · exact take_sort_subset _ _ _ z hz2
    · intro x hx
      exact List.mem_append_left _ (List.mem_append_left _ hx)
  | true =>
    simp only [batchPasses, hcat, Bool.not_true, Bool.false_eq_true, if_false]
    refine le_trans (le_of_eq ht1len.symm) (selectOut_length_ge hnd ?_ ht1nd ?_)
    · intro z hz
      rcases List.mem_append.mp hz with hz2 | hz2
      · exact take_sort_subset _ _ _ z hz2
      · exact take_sort_subset _ _ _ z hz2
    · intro x hx
      exact List.mem_append_left _ hx

/-- The strict distance minimum is kept by the batch selection. -/
theorem batchPasses_mem_dist (env : Env) (params : Params)
    (rs : List PreRankerResult) (x : PreRankerResult)
    (hnd : rs.Pairwise (fun a b => a.id ≠ b.id))
    (hB : 0 < params.batchSize) (hx : x ∈ rs)
    (hmin : ∀ y ∈ rs, y ≠ x → LessDistance x y = true) :
    x ∈ batchPasses env params rs := by
  have hhead := sortBy_head_min LessDistance LessDistance_trans LessDistance_asym rs x hx hmin
  have htop : x ∈ (sortBy LessDistance rs).take params.batchSize := head_mem_take hhead hB
  cases hcat : params.categorialRequest with
  | false =>
    simp only [batchPasses, hcat, Bool.not_false, if_true]
    refine mem_selectOut hnd ?_ hx ?_
    · intro z hz
      rcases List.mem_append.mp hz with hz2 | hz2
      · rcases List.mem_append.mp hz2 with hz3 | hz3
        · exact take_sort_subset _ _ _ z hz3
        · exact take_sort_subset _ _ _ z hz3
      · exact take_sort_subset _ _ _ z hz2
    · exact List.mem_append_left _ (List.mem_append_left _ htop)
  | true =>
    simp only [batchPasses, hcat, Bool.not_true, Bool.false_eq_true, if_false]
    refine mem_selectOut hnd ?_ hx ?_
    · intro z hz
      rcases List.mem_append.mp hz with hz2 | hz2
      · exact take_sort_subset _ _ _ z hz2
      · exact take_sort_subset _ _ _ z hz2
    · exact List.mem_append_left _ htop

/-- On the non-categorial path, the strict rank+popularity best is kept
by the batch selection. -/
theorem batchPasses_mem_rank (env : Env) (params : Params)
    (rs : List PreRankerResult) (x : PreRankerResult)
    (hcat : params.categorialRequest = false)
    (hnd : rs.Pairwise (fun a b => a.id ≠ b.id))
    (hB : 0 < params.batchSize) (hx : x ∈ rs)
    (hbest : ∀ y ∈ rs, y ≠ x → LessRankAndPopularity x y = true) :
    x ∈ batchPasses env params rs := by
  have hhead := sortBy_head_min LessRankAndPopularity LessRankAndPopularity_trans
    LessRankAndPopularity_asym rs x hx hbest
  have htop : x ∈ (sortBy LessRankAndPopularity rs).take params.batchSize :=
    head_mem_take hhead hB
  simp only [batchPasses, hcat, Bool.not_false, if_true]
  refine mem_selectOut hnd ?_ hx ?_
  · intro z hz
    rcases List.mem_append.mp hz with hz2 | hz2
    · rcases List.mem_append.mp hz2 with hz3 | hz3
      · exact take_sort_subset _ _ _ z hz3
      · exact take_sort_subset _ _ _ z hz3
    · exact take_sort_subset _ _ _ z hz2
  · exact List.mem_append_left _ (List.mem_append_right _ htop)

theorem fillFallback_frame (env : Env) (params : Params) (r : PreRankerResult) :
    (fillFallback env params r).id = r.id ∧
    (fillFallback env params r).relaxed = r.relaxed ∧
    (fillFallback env params r).matchedTokensNumber = r.matchedTokensNumber := by
  unfold fillFallback
  cases env.editor r.id <;> simp

theorem fillEnrich_frame (env : Env) (params : Params) (st2 : FillState)
    (r : PreRankerResult) :
    (fillEnrich env params st2 r).id = r.id ∧
    (fillEnrich env params st2 r).relaxed = r.relaxed ∧
    (fillEnrich env params st2 r).matchedTokensNumber = r.matchedTokensNumber := by
  unfold fillEnrich
  cases hc : st2.centers with
  | none => simp [fillFallback_frame]
  | some ct =>
    cases hg : ct.getD r.id.index none with
    | none =>
      simp only [List.getD, List.get?_eq_getElem?] at hg
      simp [hg, fillFallback_frame]
    | some c =>
      simp only [List.getD, List.get?_eq_getElem?] at hg
      simp [hg]

theorem fillOne_frame (env : Env) (params : Params) (st : FillState) (r : PreRankerResult) :
    ((fillOne env params st r).2).id = r.id ∧
    ((fillOne env params st r).2).relaxed = r.relaxed ∧
    ((fillOne env params st r).2).matchedTokensNumber = r.matchedTokensNumber :=
  fillEnrich_frame env params (fillBoundary env st r) r

theorem mem_fillList (env : Env) (params : Params) :
    ∀ (l : List PreRankerResult) (st : FillState) (x : PreRankerResult),
      x ∈ fillList env params st l →
      ∃ r ∈ l, x.id = r.id ∧ x.relaxed = r.relaxed ∧
        x.matchedTokensNumber = r.matchedTokensNumber := by
  intro l
  induction l with
  | nil => intro st x hx; simp [fillList] at hx
  | cons r rest ih =>
    intro st x hx
    rw [fillList] at hx
    rcases List.mem_cons.mp hx with rfl | hx2
    · rcases fillOne_frame env params st r with ⟨h1, h2, h3⟩
      exact ⟨r, List.mem_cons_self r rest, h1, h2, h3⟩
    · rcases ih (fillOne env params st r).1 x hx2 with ⟨r2, hr2, hp⟩
      exact ⟨r2, List.mem_cons_of_mem r hr2, hp⟩

theorem mem_FillMissingFields (env : Env) (params : Params)
    (results : List PreRankerResult) (x : PreRankerResult)
    (hx : x ∈ FillMissingFieldsInPreResults env params results) :
    ∃ r ∈ results, x.id = r.id ∧ x.relaxed = r.relaxed ∧
      x.matchedTokensNumber = r.matchedTokensNumber := by
  rcases mem_fillList env params (sortBy lessByMwm results) initFillState x hx with
    ⟨r, hr, hp⟩
  exact ⟨r, (mem_sortBy lessByMwm results r).mp hr, hp⟩

theorem FilterForViewportSearch_subset (params : Params) (pe ce : Finset FeatureID)
    (rs : List PreRankerResult) :
    ∀ x ∈ (FilterForViewportSearch params pe ce rs).1, x ∈ rs := by
  intro x hx
  simp only [FilterForViewportSearch] at hx
  exact List.mem_of_mem_filter (SweepNearbyResults_subset _ _ _ x hx)

theorem Filter_subset (env : Env) (params : Params) (pe ce : Finset FeatureID)
    (rs : List PreRankerResult) :
    ∀ x ∈ (PreRanker.Filter env params pe ce rs).1, x ∈ rs := by
  intro x hx
  simp only [PreRanker.Filter] at hx
  by_cases hvs : params.viewportSearch = true
  · simp only [hvs, if_true] at hx
    by_cases hlen : (FilterForViewportSearch params pe ce (SortUnique rs)).1.length
        ≤ params.batchSize
    · rw [if_pos hlen] at hx
      exact SortUnique_subset rs x (FilterForViewportSearch_subset params pe ce _ x hx)
    · rw [if_neg hlen] at hx
      exact SortUnique_subset rs x
        (FilterForViewportSearch_subset params pe ce _ x (batchPasses_subset env params _ x hx))
  · simp only [hvs, if_false, Bool.false_eq_true] at hx
    by_cases hlen : (SortUnique rs).length ≤ params.batchSize
    · rw [if_pos hlen] at hx
      exact SortUnique_subset rs x hx
    · rw [if_neg hlen] at hx
      exact SortUnique_subset rs x (batchPasses_subset env params _ x hx)

/-- C10: `Init(params)` empties the candidate collection, the
relaxed-result buffer and the current-emission set, zeroes the
sent-result counter and stores the params, for every prior state, while
leaving the previous-emission set and the pivot-distance estimator's
cache unchanged; those two are cleared (only) by `ClearCaches`. -/
theorem c10_init_frame (params : Params) (s : PreRankerState) :
    (PreRanker.Init params s).results = [] ∧
    (PreRanker.Init params s).relaxedResults = [] ∧
    (PreRanker.Init params s).currEmit = ∅ ∧
    (PreRanker.Init params s).numSentResults = 0 ∧
    (PreRanker.Init params s).params = params ∧
    (PreRanker.Init params s).prevEmit = s.prevEmit ∧
    (PreRanker.Init params s).pivotFeatures = s.pivotFeatures ∧
    (PreRanker.ClearCaches s).prevEmit = ∅ ∧
    (PreRanker.ClearCaches s).currEmit = ∅ ∧
    (PreRanker.ClearCaches s).pivotFeatures = ⟨[]⟩ :=
  ⟨rfl, rfl, rfl, rfl, rfl, rfl, rfl, rfl, rfl, rfl⟩

/-- C8 (amended): at the end of the terminal update cycle the
previous-emission set becomes the emission set accumulated during the
cycle, provided that set is non-empty; the old previous set moves into
the current slot (a swap). -/
theorem c8_final_swap (env : Env) (s : PreRankerState)
    (h : cycleEmit env true s ≠ ∅) :
    ((PreRanker.UpdateResults env true s).1).prevEmit = cycleEmit env true s ∧
    ((PreRanker.UpdateResults env true s).1).currEmit = s.prevEmit := by
  have hcard : ¬((cycleEmit env true s).card = 0) := by
    simpa [Finset.card_eq_zero] using h
  unfold PreRanker.UpdateResults
  rw [if_pos ⟨rfl, hcard⟩]
  exact ⟨rfl, rfl⟩

theorem c8_final_swap_witness :
    cycleEmit cEnvT true c8State ≠ ∅ ∧
    ((PreRanker.UpdateResults cEnvT true c8State).1).prevEmit = cycleEmit cEnvT true c8State ∧
    ((PreRanker.UpdateResults cEnvT true c8State).1).currEmit = c8State.prevEmit := by
  have hne : cycleEmit cEnvT true c8State ≠ ∅ := by
    rw [show cycleEmit cEnvT true c8State = {(⟨3, 3⟩ : FeatureID)} from by
      with_unfolding_all rfl]
    exact Finset.singleton_ne_empty _
  exact ⟨hne, c8_final_swap cEnvT c8State hne⟩

/-- C8 counterexample: on a terminal cycle whose accumulated current
emission set is empty, the previous-emission set does not become equal
to it — the swap is skipped and the stale set `{(9,9)}` survives. -/
theorem c8_counterexample :
    cycleEmit cEnvT true c8EmptyState = ∅ ∧
    ((PreRanker.UpdateResults cEnvT true c8EmptyState).1).prevEmit =
      ({⟨9, 9⟩} : Finset FeatureID) ∧
    ((PreRanker.UpdateResults cEnvT true c8EmptyState).1).prevEmit ≠
      cycleEmit cEnvT true c8EmptyState := by
  have h1 : cycleEmit cEnvT true c8EmptyState = (∅ : Finset FeatureID) := by
    with_unfolding_all rfl
  have h2 : ((PreRanker.UpdateResults cEnvT true c8EmptyState).1).prevEmit =
      ({⟨9, 9⟩} : Finset FeatureID) := by
    with_unfolding_all rfl
  refine ⟨h1, h2, ?_⟩
  rw [h1, h2]
  exact Finset.singleton_ne_empty _

/-- C5: relaxed candidates never reach a non-final batch — each
non-final cycle moves them into the held-over buffer — and on the final
cycle the buffer is appended back into the candidate set before
dedup/selection and then cleared. -/
theorem c5_relaxed_buffer (env : Env) (s : PreRankerState) :
    (∀ r ∈ (PreRanker.UpdateResults env false s).2, r.IsNotRelaxed = true) ∧
    ((PreRanker.UpdateResults env false s).1).relaxedResults
      = s.relaxedResults ++ s.results.filter (fun r => !r.IsNotRelaxed) ∧
    (PreRanker.FilterRelaxedResults true s).results = s.results ++ s.relaxedResults ∧
    (PreRanker.FilterRelaxedResults true s).relaxedResults = [] ∧
    ((PreRanker.UpdateResults env true s).1).relaxedResults = [] := by
  refine ⟨?_, ?_, ?_, ?_, ?_⟩
  · intro r hr
    have hr2 : r ∈ cycleBatch env false s := hr
    have hsub := Filter_subset env _ _ _ _ r hr2
    rcases mem_FillMissingFields env _ _ r hsub with ⟨orig, horig, _, hrel, _⟩
    have horig2 : orig ∈ s.results.filter (fun r => r.IsNotRelaxed) := by
      simpa [PreRanker.FilterRelaxedResults] using horig
    have hni := List.of_mem_filter horig2
    simp only [PreRankerResult.IsNotRelaxed, Bool.not_eq_true'] at hni ⊢
    rw [hrel, hni]
  · unfold PreRanker.UpdateResults
    rw [if_neg (fun h => by exact absurd h.1 (by simp))]
    simp [PreRanker.FilterRelaxedResults]
  · simp [PreRanker.FilterRelaxedResults]
  · simp [PreRanker.FilterRelaxedResults]
  · unfold PreRanker.UpdateResults
    by_cases hc : (true : Bool) = true ∧ ¬((cycleEmit env true s).card = 0)
    · rw [if_pos hc]
      simp [PreRanker.FilterRelaxedResults]
    · rw [if_neg hc]
      simp [PreRanker.FilterRelaxedResults]

theorem c5_relaxed_buffer_witness :
    (∀ r ∈ (PreRanker.UpdateResults cEnvT false c5State).2, r.IsNotRelaxed = true) ∧
    ((PreRanker.UpdateResults cEnvT false c5State).1).relaxedResults
      = c5State.relaxedResults ++ c5State.results.filter (fun r => !r.IsNotRelaxed) ∧
    (PreRanker.FilterRelaxedResults true c5State).results
      = c5State.results ++ c5State.relaxedResults ∧
    (PreRanker.FilterRelaxedResults true c5State).relaxedResults = [] ∧
    ((PreRanker.UpdateResults cEnvT true c5State).1).relaxedResults = [] :=
  c5_relaxed_buffer cEnvT c5State

/-- C2: among candidates sharing a feature id, exactly one survives the
dedup pass of `Filter`; when the id is shared by exactly the two
candidates `x` and `y` and `x` is strictly better under the dedup
comparator, the survivor is `x`; moreover the output carries no
duplicated feature id at all. -/
theorem c2_dedup (xs : List PreRankerResult) (x y : PreRankerResult)
    (hx : x ∈ xs) (hy : y ∈ xs) (hid : x.id = y.id)
    (hlt : lessForUnique x y = true)
    (honly : ∀ w ∈ xs, w.id = x.id → w = x ∨ w = y) :
    x ∈ SortUnique xs ∧ y ∉ SortUnique xs ∧
    (SortUnique xs).Pairwise (fun a b => a.id ≠ b.id) := by
  have hnotin : y ∉ SortUnique xs := by
    intro hyin
    have := SortUnique_min xs y hyin x hx hid
    rw [hlt] at this
    cases this
  refine ⟨?_, hnotin, SortUnique_ids_pairwise xs⟩
  rcases SortUnique_rep xs x hx with ⟨z, hz, hzid⟩
  rcases honly z (SortUnique_subset xs z hz) hzid with rfl | rfl
  · exact hz
  · exact absurd hz hnotin

theorem c2_dedup_witness :
    (c2Better ∈ [c2Worse, c2Better] ∧ c2Worse ∈ [c2Worse, c2Better] ∧
      c2Better.id = c2Worse.id ∧ lessForUnique c2Better c2Worse = true ∧
      (∀ w ∈ [c2Worse, c2Better], w.id = c2Better.id → w = c2Better ∨ w = c2Worse)) ∧
    (c2Better ∈ SortUnique [c2Worse, c2Better] ∧
      c2Worse ∉ SortUnique [c2Worse, c2Better] ∧
      (SortUnique [c2Worse, c2Better]).Pairwise (fun a b => a.id ≠ b.id)) :=
  ⟨⟨by decide, by decide, by decide, by decide, by decide⟩,
    c2_dedup [c2Worse, c2Better] c2Better c2Worse (by decide) (by decide) (by decide)
      (by decide) (by decide)⟩

/-- C1: on the non-viewport path the size of the `Filter` output is
between `min(BatchSize, n)` and `min(3·BatchSize, n)` where `n` is the
size of the deduplicated candidate set, and a deduplicated set within
the budget is passed through unchanged. -/
theorem c1_selector_bounds (env : Env) (params : Params) (pe ce : Finset FeatureID)
    (xs : List PreRankerResult) (hvp : params.viewportSearch = false) :
    (min params.batchSize (SortUnique xs).length
        ≤ ((PreRanker.Filter env params pe ce xs).1).length ∧
      ((PreRanker.Filter env params pe ce xs).1).length
        ≤ min (3 * params.batchSize) (SortUnique xs).length) ∧
    ((SortUnique xs).length ≤ params.batchSize →
      (PreRanker.Filter env params pe ce xs).1 = SortUnique xs) := by
  have hout : (PreRanker.Filter env params pe ce xs).1 =
      if (SortUnique xs).length ≤ params.batchSize then SortUnique xs
      else batchPasses env params (SortUnique xs) := by
    by_cases hlen : (SortUnique xs).length ≤ params.batchSize <;>
      simp [PreRanker.Filter, hvp, hlen]
  by_cases hlen : (SortUnique xs).length ≤ params.batchSize
  · rw [hout, if_pos hlen]
    exact ⟨⟨min_le_right _ _, le_min (by omega) le_rfl⟩, fun _ => rfl⟩
  · rw [hout, if_neg hlen]
    have hgt : params.batchSize < (SortUnique xs).length := Nat.lt_of_not_le hlen
    have hnd := SortUnique_ids_pairwise xs
    refine ⟨⟨?_, le_min (batchPasses_length_le_triple env params _)
      (batchPasses_length_le_input env params _ hnd)⟩, fun h => absurd h hlen⟩
    have := batchPasses_length_ge env params _ hnd hgt
    omega

theorem c1_selector_bounds_witness :
    cParamsT.viewportSearch = false ∧
    ((min cParamsT.batchSize (SortUnique [cA3, cB3]).length
        ≤ ((PreRanker.Filter cEnvT cParamsT ∅ ∅ [cA3, cB3]).1).length ∧
      ((PreRanker.Filter cEnvT cParamsT ∅ ∅ [cA3, cB3]).1).length
        ≤ min (3 * cParamsT.batchSize) (SortUnique [cA3, cB3]).length) ∧
    ((SortUnique [cA3, cB3]).length ≤ cParamsT.batchSize →
      (PreRanker.Filter cEnvT cParamsT ∅ ∅ [cA3, cB3]).1 = SortUnique [cA3, cB3])) :=
  ⟨by decide, c1_selector_bounds cEnvT cParamsT ∅ ∅ [cA3, cB3] (by decide)⟩

/-- C3: on the non-categorial, non-viewport path with an over-budget
deduplicated input, the `Filter` output always contains the strict
distance minimum and the strict rank+popularity best. -/
theorem c3_selector_completeness (env : Env) (params : Params) (pe ce : Finset FeatureID)
    (xs : List PreRankerResult) (m b : PreRankerResult)
    (hvp : params.viewportSearch = false)
    (hcat : params.categorialRequest = false)
    (hB : 0 < params.batchSize)
    (hnd : xs.Pairwise (fun a c => a.id ≠ c.id))
    (hgt : params.batchSize < xs.length)
    (hm : m ∈ xs) (hmin : ∀ y ∈ xs, y ≠ m → LessDistance m y = true)
    (hb : b ∈ xs) (hbest : ∀ y ∈ xs, y ≠ b → LessRankAndPopularity b y = true) :
    m ∈ (PreRanker.Filter env params pe ce xs).1 ∧
    b ∈ (PreRanker.Filter env params pe ce xs).1 := by
  have hperm : SortUnique xs = sortBy lessForUnique xs := SortUnique_perm_of_nodup xs hnd
  have hlen : (SortUnique xs).length = xs.length := SortUnique_length_of_nodup xs hnd
  have hnd2 : (SortUnique xs).Pairwise (fun a c => a.id ≠ c.id) := SortUnique_ids_pairwise xs
  have hout : (PreRanker.Filter env params pe ce xs).1 =
      batchPasses env params (SortUnique xs) := by
    simp only [PreRanker.Filter, hvp, Bool.false_eq_true, if_false]
    rw [if_neg]
    intro hle
    rw [hlen] at hle
    omega
  have hmem : ∀ z : PreRankerResult, z ∈ SortUnique xs ↔ z ∈ xs := by
    intro z
    rw [hperm]
    exact mem_sortBy _ _ _
  rw [hout]
  constructor
  · refine batchPasses_mem_dist env params _ m hnd2 hB ((hmem m).mpr hm) ?_
    intro y hy hne
    exact hmin y ((hmem y).mp hy) hne
  · refine batchPasses_mem_rank env params _ b hcat hnd2 hB ((hmem b).mpr hb) ?_
    intro y hy hne
    exact hbest y ((hmem y).mp hy) hne

theorem c3_selector_completeness_witness :
    (cParamsT.viewportSearch = false ∧ cParamsT.categorialRequest = false ∧
      0 < cParamsT.batchSize ∧
      ([cA3, cB3] : List PreRankerResult).Pairwise (fun a c => a.id ≠ c.id) ∧
      cParamsT.batchSize < ([cA3, cB3] : List PreRankerResult).length ∧
      cB3 ∈ [cA3, cB3] ∧ (∀ y ∈ [cA3, cB3], y ≠ cB3 → LessDistance cB3 y = true) ∧
      cA3 ∈ [cA3, cB3] ∧
      (∀ y ∈ [cA3, cB3], y ≠ cA3 → LessRankAndPopularity cA3 y = true)) ∧
    (cB3 ∈ (PreRanker.Filter cEnvT cParamsT ∅ ∅ [cA3, cB3]).1 ∧
      cA3 ∈ (PreRanker.Filter cEnvT cParamsT ∅ ∅ [cA3, cB3]).1) ∧
    (PreRanker.Filter cEnvT cParamsT ∅ ∅ [cA3, cB3]).1 = [cA3, cB3] :=
  ⟨⟨by decide, by decide, by decide, by decide, by decide, by decide, by decide,
    by decide, by decide⟩,
   c3_selector_completeness cEnvT cParamsT ∅ ∅ [cA3, cB3] cB3 cA3 (by decide) (by decide)
     (by decide) (by decide) (by decide) (by decide) (by decide) (by decide) (by decide),
   by with_unfolding_all rfl⟩

/-- C9: on the non-viewport path, `Filter` applied to the output of a
previous `Filter` run over an already-deduplicated, within-budget
collection is a no-op (the pair, candidate list and emission set alike,
is returned unchanged). -/
theorem c9_filter_idempotent (env : Env) (params : Params) (pe ce : Finset FeatureID)
    (xs : List PreRankerResult)
    (hvp : params.viewportSearch = false)
    (hnd : xs.Pairwise (fun a b => a.id ≠ b.id))
    (hlen : xs.length ≤ params.batchSize) :
    PreRanker.Filter env params pe ce ((PreRanker.Filter env params pe ce xs).1)
      = PreRanker.Filter env params pe ce xs := by
  have hlen1 : (SortUnique xs).length = xs.length := SortUnique_length_of_nodup xs hnd
  have hfirst : PreRanker.Filter env params pe ce xs = (SortUnique xs, ce) := by
    simp only [PreRanker.Filter, hvp, Bool.false_eq_true, if_false]
    rw [if_pos]
    omega
  have hsu2 : SortUnique (SortUnique xs) = SortUnique xs := SortUnique_idem xs
  rw [hfirst]
  simp only [PreRanker.Filter, hvp, Bool.false_eq_true, if_false, hsu2]
  rw [if_pos]
  omega

theorem c9_filter_idempotent_witness :
    (cParamsT.viewportSearch = false ∧
      ([cA3] : List PreRankerResult).Pairwise (fun a b => a.id ≠ b.id) ∧
      ([cA3] : List PreRankerResult).length ≤ cParamsT.batchSize) ∧
    PreRanker.Filter cEnvT cParamsT ∅ ∅ ((PreRanker.Filter cEnvT cParamsT ∅ ∅ [cA3]).1)
      = PreRanker.Filter cEnvT cParamsT ∅ ∅ [cA3] :=
  ⟨⟨by decide, by decide, by decide⟩,
   c9_filter_idempotent cEnvT cParamsT ∅ ∅ [cA3] (by decide) (by decide) (by decide)⟩

/-- C6 (amended): the sweep priority is `(max(rank, prev-boost,
popularity, exact bit) + 2) mod 256` (byte arithmetic, not the
unbounded sum); among two candidates within epsilon in both axes at
most one survives the sweep, and a survivor of such a pair has
priority at least the other's, equal priorities being resolved in
favour of previously-emitted ids. -/
theorem c6_sweep_amended (eps : Point) (prevEmit : Finset FeatureID)
    (rs : List PreRankerResult) (i j : Nat)
    (hi : i < rs.length) (hj : j < rs.length) (hne : i ≠ j)
    (hnear : sweepNear eps (rs.getD i default).center (rs.getD j default).center = true) :
    (¬(sweepSurvives eps prevEmit rs i = true ∧ sweepSurvives eps prevEmit rs j = true)) ∧
    (sweepSurvives eps prevEmit rs i = true →
      sweepPriority prevEmit (rs.getD j default) ≤ sweepPriority prevEmit (rs.getD i default) ∧
      (sweepPriority prevEmit (rs.getD i default) = sweepPriority prevEmit (rs.getD j default) →
        (rs.getD j default).id ∈ prevEmit → (rs.getD i default).id ∈ prevEmit)) := by
  have hnbr_ij : sweepNbr eps rs i j = true := by
    simp only [sweepNbr, Bool.and_eq_true, decide_eq_true_eq]
    exact ⟨⟨hi, hj⟩, hnear⟩
  have hnbr_ji : sweepNbr eps rs j i = true := by
    simp only [sweepNbr, Bool.and_eq_true, decide_eq_true_eq]
    exact ⟨⟨hj, hi⟩, sweepNear_symm eps _ _ hnear⟩
  have hcl_ij : sameCluster eps rs i j = true := sameCluster_of_nbr eps rs i j hi hnbr_ij
  have hcl_ji : sameCluster eps rs j i = true := sameCluster_of_nbr eps rs j i hj hnbr_ji
  constructor
  · rintro ⟨hsi, hsj⟩
    have h1 := sweepSurvives_beats eps prevEmit rs i j hj (Ne.symm hne) hcl_ij hsi
    have h2 := sweepSurvives_beats eps prevEmit rs j i hi hne hcl_ji hsj
    have h3 := sweepBeats_asym prevEmit rs i j h1
    rw [h2] at h3
    cases h3
  · intro hsi
    have h1 := sweepSurvives_beats eps prevEmit rs i j hj (Ne.symm hne) hcl_ij hsi
    simp only [sweepBeats, decide_eq_true_eq] at h1
    constructor
    · omega
    · intro hpe hjm
      by_cases him : (rs.getD i default).id ∈ prevEmit
      · exact him
      · exfalso
        simp only [prevFlag, hjm, him, if_true, if_false] at h1
        omega

/-- C6 counterexample: the two candidates are within epsilon, the
spec's unbounded priority formula ranks the rank-255 candidate strictly
higher (257 against 14), yet the sweep eliminates it and keeps the
rank-12 candidate, because the byte priority actually computed wraps
257 to 1.  The claim's priority formula and its survivor prediction are
both false at this input. -/
theorem c6_counterexample :
    sweepNear ⟨5, 5⟩ c6High.center c6Low.center = true ∧
    specSweepPriority ∅ c6Low < specSweepPriority ∅ c6High ∧
    SweepNearbyResults ⟨5, 5⟩ ∅ [c6High, c6Low] = [c6Low] ∧
    sweepPriority ∅ c6High = 1 ∧ specSweepPriority ∅ c6High = 257 := by
  refine ⟨by with_unfolding_all rfl, by decide, by with_unfolding_all rfl, by decide,
    by decide⟩

theorem c6_sweep_amended_witness :
    ((0 : Nat) < ([c6High, c6Low] : List PreRankerResult).length ∧
      (1 : Nat) < ([c6High, c6Low] : List PreRankerResult).length ∧ (1 : Nat) ≠ 0 ∧
      sweepNear ⟨5, 5⟩ (([c6High, c6Low] : List PreRankerResult).getD 1 default).center
        (([c6High, c6Low] : List PreRankerResult).getD 0 default).center = true) ∧
    ((¬(sweepSurvives ⟨5, 5⟩ ∅ [c6High, c6Low] 1 = true ∧
        sweepSurvives ⟨5, 5⟩ ∅ [c6High, c6Low] 0 = true)) ∧
      (sweepSurvives ⟨5, 5⟩ ∅ [c6High, c6Low] 1 = true →
        sweepPriority ∅ (([c6High, c6Low] : List PreRankerResult).getD 0 default)
            ≤ sweepPriority ∅ (([c6High, c6Low] : List PreRankerResult).getD 1 default) ∧
        (sweepPriority ∅ (([c6High, c6Low] : List PreRankerResult).getD 1 default)
            = sweepPriority ∅ (([c6High, c6Low] : List PreRankerResult).getD 0 default) →
          (([c6High, c6Low] : List PreRankerResult).getD 0 default).id ∈ (∅ : Finset FeatureID) →
          (([c6High, c6Low] : List PreRankerResult).getD 1 default).id ∈ (∅ : Finset FeatureID)))) :=
  ⟨⟨by decide, by decide, by decide, by with_unfolding_all rfl⟩,
   c6_sweep_amended ⟨5, 5⟩ ∅ [c6High, c6Low] 1 0 (by decide) (by decide) (by decide)
     (by with_unfolding_all rfl)⟩

/-- C7: every candidate surviving the viewport filter has a loaded
center inside the viewport and enough matched tokens, and its feature
id is recorded in the returned current-emission set. -/
theorem c7_viewport_prefilter (params : Params) (pe ce : Finset FeatureID)
    (rs : List PreRankerResult) (r : PreRankerResult)
    (hr : r ∈ (FilterForViewportSearch params pe ce rs).1) :
    r.centerLoaded = true ∧ params.viewport.IsPointInside r.center = true ∧
    params.numQueryTokens ≤ r.matchedTokensNumber + 1 ∧
    r.id ∈ (FilterForViewportSearch params pe ce rs).2 := by
  simp only [FilterForViewportSearch] at hr
  have hk := SweepNearbyResults_subset _ _ _ r hr
  have hp := List.of_mem_filter hk
  simp only [Bool.and_eq_true, Bool.not_eq_true', decide_eq_false_iff_not, not_lt] at hp
  refine ⟨hp.1.1, hp.1.2, hp.2, ?_⟩
  simp only [FilterForViewportSearch]
  exact mem_foldl_insert _ ce r hr

theorem c7_viewport_prefilter_witness :
    c7In ∈ (FilterForViewportSearch cParamsT ∅ ∅ [c7In, c7Out]).1 ∧
    (c7In.centerLoaded = true ∧ cParamsT.viewport.IsPointInside c7In.center = true ∧
      cParamsT.numQueryTokens ≤ c7In.matchedTokensNumber + 1 ∧
      c7In.id ∈ (FilterForViewportSearch cParamsT ∅ ∅ [c7In, c7Out]).2) := by
  have hlist : (FilterForViewportSearch cParamsT ∅ ∅ [c7In, c7Out]).1 = [c7In] := by
    with_unfolding_all rfl
  have hr : c7In ∈ (FilterForViewportSearch cParamsT ∅ ∅ [c7In, c7Out]).1 := by
    rw [hlist]
    exact List.mem_singleton_self _
  exact ⟨hr, c7_viewport_prefilter cParamsT ∅ ∅ [c7In, c7Out] c7In hr⟩

/-- C4: the claim fails on the code.  Partition 2 is unavailable, so
the claim demands rank 0 and popularity 0 for its candidate; the
resolver does reset the rank table on the boundary (rank is 0), but it
never releases the previously loaded popularity table, so the dead
partition's candidate inherits popularity 7 from partition 1's table. -/
theorem c4_stale_popularity :
    cEnvT.ds 2 = none ∧
    (FillMissingFieldsInPreResults cEnvT cParamsT [c4Alive, c4Dead]).map
        (fun r => (r.id.mwmId, r.rank, r.popularity)) = [(1, 0, 7), (2, 0, 7)] := by
  refine ⟨by rfl, by with_unfolding_all rfl⟩
